import Mathlib

/-!
Verification of the Yiddish syllable-boundary / hyphenation program
(yiddish_syllable_boundaries.py, split_text.py).

Strings are modelled as lists of Unicode code points (one Char per code
point, as in Python).  All Hebrew-script characters are written with
explicit escape sequences to keep the file free of bidirectional text.
-/

namespace Yid

/-! ### Character constants (code points used by the program) -/

/-- Hebrew letter alef, א. -/
def alef : Char := '\u05D0'
/-- Hebrew letter bet, ב. -/
def beys : Char := '\u05D1'
/-- Hebrew letter gimel, ג. -/
def giml : Char := '\u05D2'
/-- Hebrew letter dalet, ד. -/
def daled : Char := '\u05D3'
/-- Hebrew letter he, ה. -/
def hey : Char := '\u05D4'
/-- Hebrew letter vav, ו. -/
def vov : Char := '\u05D5'
/-- Hebrew letter zayin, ז. -/
def zayen : Char := '\u05D6'
/-- Hebrew letter het, ח. -/
def khes : Char := '\u05D7'
/-- Hebrew letter tet, ט. -/
def tes : Char := '\u05D8'
/-- Hebrew letter yod, י. -/
def yud : Char := '\u05D9'
/-- Hebrew letter final kaf, ך. -/
def langKhof : Char := '\u05DA'
/-- Hebrew letter kaf, כ. -/
def khof : Char := '\u05DB'
/-- Hebrew letter lamed, ל. -/
def lamed : Char := '\u05DC'
/-- Hebrew letter final mem, ם. -/
def shlosMem : Char := '\u05DD'
/-- Hebrew letter mem, מ. -/
def mem : Char := '\u05DE'
/-- Hebrew letter final nun, ן. -/
def langNun : Char := '\u05DF'
/-- Hebrew letter nun, נ. -/
def nun : Char := '\u05E0'
/-- Hebrew letter samekh, ס. -/
def samekh : Char := '\u05E1'
/-- Hebrew letter ayin, ע. -/
def ayin : Char := '\u05E2'
/-- Hebrew letter final pe, ף. -/
def langFey : Char := '\u05E3'
/-- Hebrew letter pe, פ. -/
def fey : Char := '\u05E4'
/-- Hebrew letter final tsadi, ץ. -/
def langTsadik : Char := '\u05E5'
/-- Hebrew letter tsadi, צ. -/
def tsadik : Char := '\u05E6'
/-- Hebrew letter qof, ק. -/
def kuf : Char := '\u05E7'
/-- Hebrew letter resh, ר. -/
def reysh : Char := '\u05E8'
/-- Hebrew letter shin, ש. -/
def shin : Char := '\u05E9'
/-- Hebrew letter tav, ת. -/
def tof : Char := '\u05EA'

/-- Hebrew point hiriq (combining), used in the yud-hiriq digraph. -/
def khirik : Char := '\u05B4'
/-- Hebrew point patah (combining). -/
def pasekh : Char := '\u05B7'
/-- Hebrew point qamats (combining). -/
def komets : Char := '\u05B8'
/-- Hebrew point dagesh (combining). -/
def dagesh : Char := '\u05BC'
/-- Hebrew point rafe (combining). -/
def rafe : Char := '\u05BF'
/-- Hebrew point sin dot (combining). -/
def sinDot : Char := '\u05C2'
/-- Hebrew punctuation maqaf (the hyphen mark inserted by the hyphenator). -/
def maqaf : Char := '\u05BE'

/-- Hebrew ligature double vav, װ. -/
def tsveyVovn : Char := '\u05F0'
/-- Hebrew ligature vav-yod, ױ. -/
def vovYud : Char := '\u05F1'
/-- Hebrew ligature double yod, ײ. -/
def tsveyYudn : Char := '\u05F2'

/-- Precomposed alef with patah (U+FB2E). -/
def pasekhAlef : Char := '\uFB2E'
/-- Precomposed alef with qamats (U+FB2F). -/
def kometsAlef : Char := '\uFB2F'
/-- Precomposed yod with hiriq (U+FB1D). -/
def khirikYud : Char := '\uFB1D'
/-- Precomposed double yod with patah (U+FB1F). -/
def pasekhYudn : Char := '\uFB1F'
/-- Precomposed shin with sin dot (U+FB2B). -/
def sinShin : Char := '\uFB2B'
/-- Precomposed vav with dagesh (U+FB35). -/
def uDagesh : Char := '\uFB35'
/-- Precomposed kaf with dagesh (U+FB3B). -/
def kofDagesh : Char := '\uFB3B'
/-- Precomposed pe with dagesh (U+FB44). -/
def peyDagesh : Char := '\uFB44'
/-- Precomposed pe with rafe (U+FB4E). -/
def feyRafe : Char := '\uFB4E'
/-- Precomposed bet with rafe (U+FB4C). -/
def veys : Char := '\uFB4C'
/-- Precomposed tav with dagesh (U+FB4A). -/
def tofDagesh : Char := '\uFB4A'

/-- Placeholder for consonantal yud introduced by the rewriter (letter j). -/
def phJ : Char := 'j'
/-- Placeholder for syllabic nun (U+0146). -/
def phSylNun : Char := '\u0146'
/-- Placeholder for syllabic final nun (U+0145). -/
def phSylLangNun : Char := '\u0145'
/-- Placeholder for syllabic lamed (U+013C). -/
def phSylLamed : Char := '\u013C'
/-- Placeholder for Hassidic silent alef (U+1EA1). -/
def phShtumer : Char := '\u1EA1'

/-- The syllable-boundary marker character. -/
def bar : Char := '|'

/-! ### Generic string operations (Python literal re.sub and helpers) -/

/-- Model of Python whitespace as matched by the re module class backslash-s,
restricted to the common whitespace code points. -/
def pyIsSpace (c : Char) : Bool :=
  c = ' ' || c = '\t' || c = '\n' || c = '\x0d' || c = '\x0b' || c = '\x0c' ||
  c = '\x85' || c = '\xa0'

/-- Model of the Python re word-character class (backslash-w) restricted to
the character universe of this program: ASCII alphanumerics and underscore,
the Hebrew letters, the Hebrew ligatures and precomposed letters used by the
tables, and the Latin placeholder letters.  Combining points, punctuation
and whitespace are non-word characters. -/
def isWordChar (c : Char) : Bool :=
  c.isAlphanum || c = '_' ||
  (0x5D0 ≤ c.toNat && c.toNat ≤ 0x5EA) ||
  c = tsveyVovn || c = vovYud || c = tsveyYudn ||
  c = pasekhAlef || c = kometsAlef || c = khirikYud || c = pasekhYudn ||
  c = sinShin || c = uDagesh || c = kofDagesh || c = peyDagesh ||
  c = feyRafe || c = veys || c = tofDagesh ||
  c = phSylNun || c = phSylLangNun || c = phSylLamed || c = phShtumer

/-- Replace every occurrence of the single character a by the string rep,
scanning left to right (Python re.sub with a one-character literal pattern). -/
def replace1 (a : Char) (rep : List Char) : List Char → List Char
  | [] => []
  | c :: cs => (if c = a then rep else [c]) ++ replace1 a rep cs

/-- Replace every non-overlapping occurrence of the two-character literal
pattern a,b by rep, scanning left to right (Python re.sub with a
two-character literal pattern). -/
def replace2 (a b : Char) (rep : List Char) : List Char → List Char
  | [] => []
  | [c] => [c]
  | c :: d :: cs =>
    if c = a ∧ d = b then rep ++ replace2 a b rep cs
    else c :: replace2 a b rep (d :: cs)

/-- Worker for subWB2: prev records whether the previous character of the
original string is a word character (none at the start of the string). -/
def subWB2Go (a b : Char) (rep : List Char) (prevWord : Bool) :
    List Char → List Char
  | [] => []
  | [c] => [c]
  | c :: d :: cs =>
    if ¬prevWord ∧ c = a ∧ d = b then rep ++ subWB2Go a b rep (isWordChar b) cs
    else c :: subWB2Go a b rep (isWordChar c) (d :: cs)

/-- Python re.sub with a word-boundary anchored two-character pattern
(backslash-b a b): since a is a word character, a match requires the
preceding position to be the string start or a non-word character. -/
def subWB2 (a b : Char) (rep : List Char) (s : List Char) : List Char :=
  subWB2Go a b rep false s

/-- Does c belong to the character class of the shtumer-alef-after-vovn rule
(vav, vav-yod ligature, or vav with dagesh)? -/
def vovnClass (c : Char) : Bool :=
  c = vov || c = vovYud || c = uDagesh

/-- Python re.sub for the pattern tsvey-vovn, alef, [vovnClass] replaced by
tsvey-vovn, silent-alef placeholder, the captured class character. -/
def subVovnAlef : List Char → List Char
  | c :: d :: e :: cs =>
    if c = tsveyVovn ∧ d = alef ∧ vovnClass e then
      tsveyVovn :: phShtumer :: e :: subVovnAlef cs
    else c :: subVovnAlef (d :: e :: cs)
  | s => s

/-- The vowel-context class used in the lookbehind and lookahead of the
syllabic nun/lamed rules (all eleven vowel spellings, one code point each). -/
def sonorantCtx (c : Char) : Bool :=
  c = pasekhAlef || c = ayin || c = yud || c = alef || c = kometsAlef ||
  c = vov || c = tsveyYudn || c = pasekhYudn || c = vovYud ||
  c = khirikYud || c = uDagesh

/-- The match condition of the syllabic nun/lamed rules at one position: the
character equals the target, the negative lookbehind holds (no preceding
character, or a preceding character that is neither whitespace nor in the
vowel context class), and, when checkAfter is set, the negative lookahead
holds (no following character in the vowel context class). -/
def sonMatch (target : Char) (checkAfter : Bool) (prev : Option Char)
    (c : Char) (rest : List Char) : Bool :=
  (c == target) &&
  (match prev with
   | none => true
   | some p => !(pyIsSpace p || sonorantCtx p)) &&
  (if checkAfter then
     match rest with
     | [] => true
     | d :: _ => !sonorantCtx d
   else true)

/-- Worker for the syllabic nun/lamed rules: a one-character pattern guarded
by lookbehind and lookahead.  The lookaround inspects the original string, so
prev carries the original previous character. -/
def subSonGo (target rep : Char) (checkAfter : Bool) :
    Option Char → List Char → List Char
  | _, [] => []
  | prev, c :: cs =>
    (if sonMatch target checkAfter prev c cs then rep else c) ::
      subSonGo target rep checkAfter (some c) cs

/-- Python re.sub for the syllabic nun/lamed placeholder rules. -/
def subSon (target rep : Char) (checkAfter : Bool) (s : List Char) :
    List Char :=
  subSonGo target rep checkAfter none s

/-- Python substring containment: does pat occur contiguously in s? -/
def containsSeq (pat : List Char) : List Char → Bool
  | [] => pat.isPrefixOf []
  | c :: cs => pat.isPrefixOf (c :: cs) || containsSeq pat cs

/-! ### CharacterNormalizer (combine and separate) -/

/-- The combination table of combine-chars, in source registration order:
each two-code-point digraph and its precomposed replacement. -/
def combineTable : List ((Char × Char) × Char) :=
  [((alef, pasekh), pasekhAlef),
   ((alef, komets), kometsAlef),
   ((beys, rafe), veys),
   ((vov, dagesh), uDagesh),
   ((vov, vov), tsveyVovn),
   ((vov, yud), vovYud),
   ((yud, khirik), khirikYud),
   ((yud, yud), tsveyYudn),
   ((tsveyYudn, pasekh), pasekhYudn),
   ((khof, dagesh), kofDagesh),
   ((fey, dagesh), peyDagesh),
   ((fey, rafe), feyRafe),
   ((shin, sinDot), sinShin),
   ((tof, dagesh), tofDagesh)]

/-- Combine multi-code-point Yiddish characters into single precomposed code
points, applying the table rules in registration order. -/
def combineChars (s : List Char) : List Char :=
  combineTable.foldl (fun t rule => replace2 rule.1.1 rule.1.2 [rule.2] t) s

/-- The separation table of separate-chars: every combination-table entry
except the three ligatures kept permanently composed. -/
def separateTable : List (Char × (Char × Char)) :=
  [(pasekhAlef, (alef, pasekh)),
   (kometsAlef, (alef, komets)),
   (veys, (beys, rafe)),
   (uDagesh, (vov, dagesh)),
   (khirikYud, (yud, khirik)),
   (pasekhYudn, (tsveyYudn, pasekh)),
   (kofDagesh, (khof, dagesh)),
   (peyDagesh, (fey, dagesh)),
   (feyRafe, (fey, rafe)),
   (sinShin, (shin, sinDot)),
   (tofDagesh, (tof, dagesh))]

/-- Separate precomposed Yiddish characters back into multi-code-point form,
except the three ligatures. -/
def separateChars (s : List Char) : List Char :=
  separateTable.foldl (fun t rule => replace1 rule.1 [rule.2.1, rule.2.2] t) s

/-! ### PhonologicalRewriter -/

/-- The six word-initial shtumer-alef rules of the rewriter, innermost rule
applied first (source order). -/
def shtumerRules (s : List Char) : List Char :=
  subWB2 alef uDagesh [phShtumer, uDagesh]
    (subWB2 alef pasekhYudn [phShtumer, pasekhYudn]
      (subWB2 alef vovYud [phShtumer, vovYud]
        (subWB2 alef tsveyYudn [phShtumer, tsveyYudn]
          (subWB2 alef vov [phShtumer, vov]
            (subWB2 alef yud [phShtumer, yud] s)))))

/-- The nine consonantal-yud rules of the rewriter, innermost rule applied
first (source order). -/
def jRules (s : List Char) : List Char :=
  replace2 yud vovYud [phJ, vovYud]
    (replace2 yud tsveyYudn [phJ, tsveyYudn]
      (replace2 yud pasekhYudn [phJ, pasekhYudn]
        (replace2 yud khirikYud [phJ, khirikYud]
          (replace2 yud ayin [phJ, ayin]
            (replace2 yud vov [phJ, vov]
              (replace2 yud alef [phJ, alef]
                (replace2 yud kometsAlef [phJ, kometsAlef]
                  (replace2 yud pasekhAlef [phJ, pasekhAlef] s))))))))

/-- The three syllabic nun/lamed rules of the rewriter, innermost rule
applied first (source order). -/
def sonRules (s : List Char) : List Char :=
  subSon lamed phSylLamed true
    (subSon langNun phSylLangNun false
      (subSon nun phSylNun true s))

/-- Undo an accidental word-initial syllabic nun or lamed replacement. -/
def undoInitial : List Char → List Char
  | [] => []
  | c :: cs =>
    if c = phSylNun then nun :: cs
    else if c = phSylLamed then lamed :: cs
    else c :: cs

/-- The rewriter replace-consonant-j-syllabic-nl: word-initial shtumer alef
rules, the shtumer alef after tsvey vovn, the consonantal-yud rules, the
syllabic nun/lamed rules, and the word-initial undo step, in source order. -/
def rewriteWord (s : List Char) : List Char :=
  undoInitial (sonRules (jRules (subVovnAlef (shtumerRules s))))

/-! ### PatternTableBuilder -/

/-- The pattern tables fed to the syllable assigner. -/
structure PatternSet where
  consonants : List Char
  vowels : List Char
  onsets : List (List Char)
  prefixTable : List (List Char)
  deriving Repr, DecidableEq

/-- The transliteration table from abstract phoneme labels to their one-to-
three concrete spellings; the Zh spelling is the two letters zayen, shin. -/
def translit (label : String) : List (List Char) :=
  match label with
  | "A" => [[pasekhAlef]]
  | "Ay" => [[pasekhYudn]]
  | "B" => [[beys]]
  | "D" => [[daled]]
  | "E" => [[ayin]]
  | "Ey" => [[tsveyYudn]]
  | "F" => [[feyRafe], [fey]]
  | "G" => [[giml]]
  | "H" => [[hey]]
  | "I" => [[khirikYud], [khirikYud], [yud]]
  | "K" => [[kuf], [kofDagesh]]
  | "Kh" => [[khof], [khes]]
  | "L" => [[lamed]]
  | "M" => [[mem]]
  | "N" => [[nun]]
  | "O" => [[kometsAlef]]
  | "Oy" => [[vovYud]]
  | "P" => [[peyDagesh]]
  | "R" => [[reysh]]
  | "S" => [[samekh], [sinShin], [tof]]
  | "Sh" => [[shin]]
  | "T" => [[tes], [tofDagesh]]
  | "Ts" => [[tsadik]]
  | "U" => [[vov], [uDagesh]]
  | "V" => [[tsveyVovn], [veys]]
  | "Y" => [[phJ]]
  | "Z" => [[zayen]]
  | "Zh" => [[zayen, shin]]
  | _ => []

/-- The list of all Yiddish vowels (nuclei), in source order. -/
def vowelsList : List Char :=
  [alef, pasekhAlef, ayin, yud, kometsAlef, vov, tsveyYudn, pasekhYudn,
   vovYud, khirikYud, uDagesh, phSylNun, phSylLangNun, phSylLamed]

/-- The list of singleton consonants, in source order. -/
def consonantsList : List Char :=
  [phShtumer, beys, veys, giml, daled, hey, tsveyVovn, zayen, khes, tes,
   phJ, kofDagesh, khof, langKhof, lamed, mem, shlosMem, nun, langNun,
   samekh, ayin, peyDagesh, feyRafe, fey, langFey, tsadik, langTsadik,
   kuf, reysh, shin, sinShin, tofDagesh, tof]

/-- The abstract onset templates of the jacobs system: the source stores
each template as space-separated phoneme labels and splits it on spaces;
the templates are written here already split. -/
def jacobsTemplates : List (List String) :=
  [ ["P", "T"], ["P", "L"], ["P", "R"], ["P", "N"], ["P", "S"], ["P", "Sh"],
   ["P", "Kh"], ["P", "L"], ["P", "K"], ["T", "R"], ["T", "M"], ["B", "D"],
   ["B", "L"], ["B", "R"], ["B", "G"], ["D", "L"], ["D", "N"], ["T", "N"],
   ["T", "L"], ["T", "K"], ["T", "V"], ["T", "F"], ["T", "Kh"], ["D", "R"],
   ["D", "V"], ["K", "N"], ["K", "T"], ["K", "D"], ["K", "L"], ["K", "S"],
   ["K", "R"], ["K", "V"], ["G", "N"], ["G", "L"], ["G", "R"], ["G", "V"],
   ["G", "Z"], ["F", "L"], ["F", "R"], ["V", "L"], ["V", "R"], ["S", "M"],
   ["S", "F"], ["S", "V"], ["S", "N"], ["S", "T"], ["S", "D"], ["S", "K"],
   ["S", "P"], ["S", "Kh"], ["S", "R"], ["S", "L"], ["Z", "M"], ["Z", "N"],
   ["Z", "G"], ["Z", "R"], ["Z", "L"], ["Z", "B"], ["Sh", "M"], ["Sh", "V"],
   ["Sh", "F"], ["Sh", "N"], ["Sh", "T"], ["Sh", "P"], ["Sh", "K"],
   ["Sh", "Kh"], ["Sh", "R"], ["Sh", "L"], ["Sh", "T", "Sh"], ["Zh", "M"],
   ["Zh", "L"], ["Kh", "M"], ["Kh", "V"], ["Kh", "Sh"], ["Kh", "S"],
   ["Kh", "L"], ["Kh", "K"], ["Kh", "Ts"], ["Kh", "N"], ["Kh", "R"],
   ["Ts", "L"], ["Ts", "N"], ["Ts", "D"], ["Ts", "V"], ["T", "Sh", "V"],
   ["M", "R"], ["M", "L"], ["Sh", "P", "R"], ["Sh", "T", "R"],
   ["Sh", "K", "R"], ["Sh", "P", "L"], ["Sh", "K", "L"], ["S", "P", "R"],
   ["S", "T", "R"], ["S", "K", "R"], ["S", "P", "L"], ["S", "K", "L"],
   ["T", "Sh"], ["D", "Zh"]]

/-- The abstract onset templates of the viler system. -/
def vilerTemplates : List (List String) :=
  [ ["P", "L"], ["P", "R"], ["T", "L"], ["T", "R"], ["B", "L"], ["B", "R"],
   ["D", "R"], ["K", "L"], ["K", "N"], ["K", "R"], ["G", "L"], ["G", "R"],
   ["F", "L"], ["F", "R"], ["S", "M"], ["S", "N"], ["S", "T"], ["S", "K"],
   ["S", "P"], ["S", "L"], ["Sh", "M"], ["Sh", "N"], ["Sh", "T"],
   ["Sh", "P"], ["Sh", "K"], ["Sh", "R"], ["Sh", "L"], ["Sh", "P", "R"],
   ["Sh", "T", "R"], ["Sh", "K", "R"], ["Sh", "P", "L"], ["Sh", "K", "L"],
   ["S", "P", "R"], ["S", "T", "R"], ["S", "K", "R"], ["S", "P", "L"],
   ["S", "K", "L"], ["T", "Sh"], ["D", "Zh"]]

/-- Expand one abstract onset template into every concrete spelling: look
each label up in the transliteration table and take the Cartesian product
of the spellings (itertools.product order). -/
def expandOnset (labels : List String) : List (List Char) :=
  labels.foldr
    (fun lab acc => (translit lab).flatMap (fun sp => acc.map (fun rest => sp ++ rest)))
    [[]]

/-- The registered prefix strings exactly as written in the source (raw,
before combine-chars is applied), in declaration order. -/
def rawPrefixTable : List (List Char) :=
  [[alef, pasekh, daled, vov, reysh, khof],
   [alef, daled, vov, reysh, khof],
   [daled, vov, reysh, khof],
   [alef, pasekh, hey, yud, nun],
   [alef, hey, yud, nun],
   [alef, pasekh, hey, ayin, reysh],
   [alef, hey, ayin, reysh],
   [alef, pasekh, tsveyVovn, ayin, kuf],
   [alef, tsveyVovn, ayin, kuf],
   [alef, vovYud, samekh],
   [alef, vov, mem],
   [alef, vov, nun, tes, ayin, reysh],
   [alef, vovYud, fey, rafe],
   [alef, vovYud, fey],
   [alef, pasekh, nun, tes, kuf, ayin, giml, nun],
   [alef, nun, tes, kuf, ayin, giml, nun],
   [alef, pasekh, kuf, ayin, giml, nun],
   [alef, kuf, ayin, giml, nun],
   [kuf, ayin, giml, nun],
   [alef, yud, beys, ayin, reysh],
   [alef, tsveyYudn, pasekh, nun],
   [alef, tsveyYudn, nun],
   [alef, komets, nun],
   [alef, nun],
   [alef, pasekh, nun, yud, daled, ayin, reysh],
   [alef, nun, yud, daled, ayin, reysh],
   [alef, komets, fey, dagesh],
   [alef, fey],
   [alef, pasekh, reysh, alef, komets, fey, dagesh],
   [alef, reysh, alef, komets, fey],
   [alef, reysh, alef, fey],
   [alef, pasekh, reysh, vovYud, samekh],
   [alef, reysh, vovYud, samekh],
   [alef, pasekh, reysh, vov, mem],
   [alef, reysh, vov, mem],
   [alef, pasekh, reysh, vovYud, fey, rafe],
   [alef, pasekh, reysh, vovYud, fey],
   [alef, reysh, vovYud, fey],
   [alef, pasekh, reysh, yud, beys, ayin, reysh],
   [alef, reysh, yud, beys, ayin, reysh],
   [alef, pasekh, reysh, tsveyYudn, pasekh, nun],
   [alef, pasekh, reysh, tsveyYudn, nun],
   [alef, reysh, tsveyYudn, nun],
   [beys, tsveyYudn, pasekh],
   [beys, tsveyYudn],
   [mem, yud, tes],
   [nun, alef, komets, khof],
   [nun, alef, khof],
   [fey, rafe, vov, nun, alef, pasekh, nun, daled, ayin, reysh],
   [fey, vov, nun, alef, pasekh, nun, daled, ayin, reysh],
   [fey, vov, nun, alef, nun, daled, ayin, reysh],
   [fey, rafe, alef, pasekh, nun, alef, pasekh, nun, daled, ayin, reysh],
   [fey, alef, pasekh, nun, alef, pasekh, nun, daled, ayin, reysh],
   [fey, alef, nun, alef, nun, daled, ayin, reysh],
   [fey, rafe, alef, komets, reysh],
   [fey, alef, komets, reysh],
   [fey, alef, reysh],
   [fey, rafe, alef, komets, reysh, vovYud, samekh],
   [fey, alef, komets, reysh, vovYud, samekh],
   [fey, alef, reysh, vovYud, samekh],
   [alef, pasekh, fey, rafe, ayin, reysh],
   [alef, pasekh, fey, ayin, reysh],
   [alef, fey, ayin, reysh],
   [alef, pasekh, fey, rafe, yud, reysh],
   [alef, pasekh, fey, yud, reysh],
   [alef, fey, yud, reysh],
   [fey, rafe, yud, reysh],
   [fey, yud, reysh],
   [tsadik, vov, zayen, alef, pasekh, mem, ayin, nun],
   [tsadik, vov, zayen, alef, mem, ayin, nun],
   [tsadik, vov, nun, vovYud, fey, rafe],
   [tsadik, vov, nun, vovYud, fey],
   [tsadik, vov, reysh, yud, kuf],
   [tsadik, vov],
   [kuf, reysh, yud, kuf],
   [kuf, alef, pasekh, reysh, yud, kuf],
   [kuf, alef, reysh, yud, kuf],
   [fey, rafe, alef, pasekh, reysh, beys, tsveyYudn, pasekh],
   [fey, alef, pasekh, reysh, beys, tsveyYudn],
   [fey, alef, reysh, beys, tsveyYudn],
   [alef, pasekh, nun, tes],
   [alef, nun, tes],
   [beys, alef, pasekh],
   [beys, alef],
   [giml, ayin],
   [daled, ayin, reysh],
   [fey, rafe, alef, pasekh, reysh],
   [fey, alef, pasekh, reysh],
   [fey, alef, reysh],
   [tsadik, ayin]]

/-- Build the pattern tables for a system name: expand the system's onset
templates, add the empty onset and every singleton consonant, and register
the combine-chars normalized prefix table.  A system name other than jacobs
or viler selects the empty template list (the source initializes onsets to
the empty list and neither branch fires), so construction still succeeds. -/
def generatePatterns (system : String) : PatternSet :=
  let templates :=
    if system = "jacobs" then jacobsTemplates
    else if system = "viler" then vilerTemplates
    else []
  let allOnsets := (templates.map expandOnset).flatten
  { consonants := consonantsList
    vowels := vowelsList
    onsets := allOnsets ++ [[]] ++ consonantsList.map (fun c => [c])
    prefixTable := rawPrefixTable.map combineChars }

/-! ### SyllableAssigner -/

/-- A syllable: onset, one-letter nucleus, coda. -/
structure Syllable where
  onset : List Char
  nucleus : Char
  coda : List Char
  deriving Repr, DecidableEq

/-- The letters of a syllable in order. -/
def sylChars (s : Syllable) : List Char :=
  s.onset ++ s.nucleus :: s.coda

/-- Append a trailing consonant run to the coda of the last syllable. -/
def appendCodaLast : List Syllable → List Char → List Syllable
  | [], _ => []
  | [s], coda => [{ s with coda := s.coda ++ coda }]
  | s :: ss, coda => s :: appendCodaLast ss coda

/-- Split an inter-nucleus consonant run into (coda, onset): the onset is
the longest suffix of the run present in the onset table (codaAcc collects
the leading consonants already given up to the coda). -/
def splitRunGo (pats : PatternSet) (codaAcc : List Char) :
    List Char → List Char × List Char
  | [] => (codaAcc, [])
  | r :: rs =>
    if (r :: rs) ∈ pats.onsets then (codaAcc, r :: rs)
    else splitRunGo pats (codaAcc ++ [r]) rs

/-- Split an inter-nucleus consonant run into coda and maximal onset. -/
def splitRun (pats : PatternSet) (run : List Char) : List Char × List Char :=
  splitRunGo pats [] run

/-- Modelled from the spec: the external syllabifier.syllabify module
(P2TK) imported by the source is not part of the repository, so the
SyllableAssigner is modelled from the specification: for each vowel letter
(a nucleus) the consonant run since the previous nucleus is split, the
longest suffix of the run present in the onset table becoming the new
syllable's onset and the leftover leading consonants the previous
syllable's coda; at a word boundary (before the first nucleus) the whole
run goes to the first onset, there being no preceding syllable to take a
coda; trailing consonants join the last syllable's coda; a letter outside
both the vowel and consonant tables, or a word without any nucleus, is an
assignment failure (none). -/
def assignGo (pats : PatternSet) (sylls : List Syllable) (run : List Char) :
    List Char → Option (List Syllable)
  | [] =>
    match sylls with
    | [] => none
    | _ => some (appendCodaLast sylls run)
  | c :: cs =>
    if c ∈ pats.vowels then
      match sylls with
      | [] => assignGo pats [⟨run, c, []⟩] [] cs
      | _ =>
        let (coda, onset) := splitRun pats run
        assignGo pats (appendCodaLast sylls coda ++ [⟨onset, c, []⟩]) [] cs
    else if c ∈ pats.consonants then
      assignGo pats sylls (run ++ [c]) cs
    else none

/-- Modelled from the spec: Maximum-Onset-Principle syllable assignment
over a rewritten word (see assignGo). -/
def assign (pats : PatternSet) (w : List Char) : Option (List Syllable) :=
  assignGo pats [] [] w

/-! ### Syllabifier facade (add-syllable-boundaries and syllabify) -/

/-- The disallowed letter sequences of the short-circuit check, exactly as
written in the source (decomposed two-code-point forms and the bare letters
het and tav). -/
def disallowedSeqs : List (List Char) :=
  [[beys, rafe], [khes], [khof, dagesh], [shin, sinDot], [tof, dagesh], [tof]]

/-- Does the word contain any disallowed letter sequence? -/
def disallowedHit (word : List Char) : Bool :=
  disallowedSeqs.any (fun p => containsSeq p word)

/-- Partition a string into maximal runs of characters agreeing on the
classifier (the model of re.findall with word-run or nonword-run). -/
def chunksBy (f : Char → Bool) : List Char → List (List Char)
  | [] => []
  | c :: cs =>
    match chunksBy f cs with
    | [] => [[c]]
    | [] :: rs => [c] :: [] :: rs
    | (d :: r) :: rs =>
      if f c = f d then (c :: d :: r) :: rs else [c] :: (d :: r) :: rs

/-- Partition a word into maximal word-character and non-word-character
runs (re.findall of word-or-nonword runs). -/
def findRuns (s : List Char) : List (List Char) :=
  chunksBy isWordChar s

/-- Does this run start with a word character (the wordPattern.match test)? -/
def runIsWord : List Char → Bool
  | [] => false
  | c :: _ => isWordChar c

/-- The prefix-stripping step: if the subword starts with any registered
prefix, the first prefix in table order that is a proper prefix of the
subword (startswith holds and the subword differs from it) is removed. -/
def stripFirstProper (table : List (List Char)) (w : List Char) :
    Option (List Char) × List Char :=
  if table.any (fun p => p.isPrefixOf w) then
    match table.find? (fun p => p.isPrefixOf w && !(w == p)) with
    | some p => (some p, w.drop p.length)
    | none => (none, w)
  else (none, w)

/-- Assemble the result string from the syllables: append each syllable's
letters and place a boundary bar after it unless the accumulated result is
still at most one character long (no one-character syllable at word start). -/
def buildResult (sylls : List Syllable) : List Char :=
  sylls.foldl
    (fun acc syl =>
      let acc := acc ++ sylChars syl
      if acc.length > 1 then acc ++ [bar] else acc)
    []

/-- Map the placeholder characters back to Yiddish letters (the five
re.sub calls, in source order: j, syllabic nun, syllabic final nun,
syllabic lamed, silent alef). -/
def backSub (s : List Char) : List Char :=
  replace1 phShtumer [alef]
    (replace1 phSylLamed [lamed]
      (replace1 phSylLangNun [langNun]
        (replace1 phSylNun [nun]
          (replace1 phJ [yud] s))))

/-- Remove a single trailing boundary bar (re.sub of bar-at-end). -/
def stripTrailingBar (s : List Char) : List Char :=
  match s.getLast? with
  | some c => if c = bar then s.dropLast else s
  | none => s

/-- The rewritten, prefix-stripped form of a word run (the value the except
branch of the source turns into individual letters). -/
def strippedRewritten (pats : PatternSet) (sub : List Char) : List Char :=
  rewriteWord (stripFirstProper pats.prefixTable sub).2

/-- Process one word run of add-syllable-boundaries: strip a prefix,
rewrite, assign syllables, build the boundary-marked result, reattach the
prefix with a bar, map placeholders back and strip a trailing bar.  Returns
none when syllable assignment fails (the except path). -/
def processWordRun (pats : PatternSet) (sub : List Char) :
    Option (List Char) :=
  match assign pats (strippedRewritten pats sub) with
  | none => none
  | some sylls =>
    let result := buildResult sylls
    let result :=
      match (stripFirstProper pats.prefixTable sub).1 with
      | some p => p ++ bar :: result
      | none => result
    some (stripTrailingBar (backSub result))

/-- One step of the add-syllable-boundaries loop over the runs: a
successful word run's boundary-marked form is appended to the accumulator,
a failing word run REPLACES the accumulator by the run's individual
rewritten letters (the source assigns instead of appending), and a non-word
run is appended verbatim. -/
def asbStep (pats : PatternSet) (acc : List (List Char)) (run : List Char) :
    List (List Char) :=
  if runIsWord run then
    match processWordRun pats run with
    | some r => acc ++ [r]
    | none => (strippedRewritten pats run).map (fun c => [c])
  else acc ++ [run]

/-- The add-syllable-boundaries method: a word containing a disallowed
sequence is returned as is; otherwise the runs are folded with asbStep. -/
def addSyllableBoundaries (pats : PatternSet) (word : List Char) :
    List (List Char) :=
  if disallowedHit word then [word]
  else (findRuns word).foldl (asbStep pats) []

/-- The syllabify method: combine characters, add syllable boundaries, join
and separate characters. -/
def syllabify (pats : PatternSet) (word : List Char) : List Char :=
  separateChars (addSyllableBoundaries pats (combineChars word)).flatten

/-! ### Hyphenator -/

/-- Python str.splitlines restricted to the newline, carriage-return and
carriage-return newline terminators. -/
def splitLines : List Char → List (List Char)
  | [] => []
  | '\x0d' :: '\n' :: cs => [] :: splitLines cs
  | '\n' :: cs => [] :: splitLines cs
  | '\x0d' :: cs => [] :: splitLines cs
  | c :: cs =>
    match splitLines cs with
    | [] => [[c]]
    | l :: ls => (c :: l) :: ls

/-- Python str.split with no separator: maximal non-whitespace runs. -/
def pySplit (s : List Char) : List (List Char) :=
  (chunksBy pyIsSpace s).filter (fun r => !(pyIsSpace (r.headD ' ')))

/-- Python str.split on the bar character. -/
def splitOnBar : List Char → List (List Char)
  | [] => [[]]
  | c :: cs =>
    if c = bar then [] :: splitOnBar cs
    else
      match splitOnBar cs with
      | [] => [[c]]
      | p :: ps => (c :: p) :: ps

/-- The cumulative syllable lengths (tot accumulates the running total). -/
def cumLens (tot : Nat) : List (List Char) → List Nat
  | [] => []
  | s :: ss => (tot + s.length) :: cumLens (tot + s.length) ss

/-- The largest index i with current-length + cumulative-length i + 2 at
most the line length (the reversed-range search of the source). -/
def lastFit (lineLen curLen : Nat) (cum : List Nat) : Option Nat :=
  (List.range cum.length).reverse.find?
    (fun i => curLen + cum.getD i 0 + 2 ≤ lineLen)

/-- One step of the hyphenator's inner word loop, transforming the pair of
emitted chunks and current chunk. -/
def hyphenateWordStep (pats : PatternSet) (lineLen : Nat)
    (st : List (List Char) × List Char) (word : List Char) :
    List (List Char) × List Char :=
  let chunks := st.1
  let cur := st.2
  if cur.length + word.length + 1 ≤ lineLen then
    (chunks, cur ++ ' ' :: word)
  else
    let sylls := splitOnBar (syllabify pats word)
    match lastFit lineLen cur.length (cumLens 0 sylls) with
    | some i =>
      (chunks ++ [cur ++ ' ' :: (sylls.take (i + 1)).flatten ++ [maqaf]],
       (sylls.drop (i + 1)).flatten)
    | none => (chunks ++ [cur], word)

/-- Process one input line of the hyphenator: fold the word step over the
line's words starting from an empty current chunk, then flush a non-empty
remaining chunk. -/
def hyphenateLine (pats : PatternSet) (lineLen : Nat)
    (chunks : List (List Char)) (line : List Char) : List (List Char) :=
  let st := (pySplit line).foldl (hyphenateWordStep pats lineLen) (chunks, [])
  if st.2 ≠ [] then st.1 ++ [st.2] else st.1

/-- The hyphenate method: process the text line by line, accumulating
emitted chunks. -/
def hyphenate (pats : PatternSet) (text : List Char) (lineLen : Nat) :
    List (List Char) :=
  (splitLines text).foldl (hyphenateLine pats lineLen) []

/-- Delete every boundary bar from a string. -/
def delBars (s : List Char) : List Char :=
  s.filter (fun c => c ≠ bar)

/-- Un-hyphenate a chunk list: a chunk ending in a maqaf continues its
word in the next chunk (drop the maqaf and glue), otherwise the chunk is
followed by a word boundary (a space). -/
def rejoinChunks : List (List Char) → List Char
  | [] => []
  | c :: cs =>
    (if c.getLast? = some maqaf then c.dropLast else c ++ [' ']) ++
      rejoinChunks cs

/-! ### Generic lemmas about the string operations -/

/-- Characters that any of the rewriter's replacements can write into the
string (the union of all replacement strings and of the undo step). -/
def rewriteIntro : List Char :=
  [phShtumer, phJ, phSylNun, phSylLangNun, phSylLamed,
   yud, vov, tsveyYudn, vovYud, pasekhYudn, uDagesh,
   pasekhAlef, kometsAlef, alef, ayin, khirikYud, nun, lamed]

/-- The character map performed by the placeholder back-substitution. -/
def backSubChar (c : Char) : Char :=
  if c = phJ then yud
  else if c = phSylNun then nun
  else if c = phSylLangNun then langNun
  else if c = phSylLamed then lamed
  else if c = phShtumer then alef
  else c

/-- The letters of a syllable list in order. -/
def syllsChars (sylls : List Syllable) : List Char :=
  (sylls.map sylChars).flatten

/-- One step of the result-building fold. -/
def buildStep (acc : List Char) (syl : Syllable) : List Char :=
  let acc := acc ++ sylChars syl
  if acc.length > 1 then acc ++ [bar] else acc

/-- The normalized prefix table (independent of the system name). -/
def thePrefixTable : List (List Char) :=
  rawPrefixTable.map combineChars

/-- The per-run hypothesis bundle used for the word-level lemma. -/
def goodRun (pats : PatternSet) (run : List Char) : Prop :=
  (runIsWord run = true →
    (∀ c ∈ run, isWordChar c = true) ∧
    (∀ c ∈ run, c ∉ [phJ, phSylNun, phSylLangNun, phSylLamed, phShtumer]) ∧
    processWordRun pats run ≠ none) ∧
  bar ∉ run

/-- A superset of all characters any stage of syllabify can introduce. -/
def syllabifyIntro : List Char :=
  rewriteIntro ++ [bar, yud, nun, langNun, lamed, alef] ++
  combineTable.map (fun ru => ru.2) ++
  separateTable.flatMap (fun ru => [ru.2.1, ru.2.2])

/-- The string a word run contributes to the joined output: the
boundary-marked result on success, the rewritten stripped letters on an
assignment failure. -/
def runEmitted (pats : PatternSet) (sub : List Char) : List Char :=
  match processWordRun pats sub with
  | some r => r
  | none => strippedRewritten pats sub

/-- The first prefix in table order that is a proper prefix of the word
(stated from the claim's words, for comparison with the source's loop). -/
def firstProperPfx (table : List (List Char)) (w : List Char) :
    Option (List Char) :=
  table.find? (fun p => p.isPrefixOf w && !(w == p))

def chunkOk (lineLen : Nat) (c : List Char) : Prop :=
  c.length ≤ lineLen ∨ ' ' ∉ c

theorem mem_replace1 (a : Char) (rep : List Char) (c : Char) :
    ∀ s, c ∈ replace1 a rep s → c ∈ rep ∨ c ∈ s
  | [], h => by simp [replace1] at h
  | d :: ds, h => by
    simp only [replace1, List.mem_append] at h
    rcases h with h | h
    · by_cases hd : d = a
      · simp [hd] at h; exact Or.inl h
      · simp [hd] at h; simp [h]
    · rcases mem_replace1 a rep c ds h with h | h
      · exact Or.inl h
      · simp [h]

theorem mem_replace2 (a b : Char) (rep : List Char) (c : Char) :
    ∀ s, c ∈ replace2 a b rep s → c ∈ rep ∨ c ∈ s
  | [], h => by simp [replace2] at h
  | [d], h => by simp [replace2] at h; simp [h]
  | d :: e :: ds, h => by
    simp only [replace2] at h
    split at h
    · rcases List.mem_append.1 h with h | h
      · exact Or.inl h
      · rcases mem_replace2 a b rep c ds h with h | h
        · exact Or.inl h
        · simp [h]
    · rcases List.mem_cons.1 h with h | h
      · simp [h]
      · rcases mem_replace2 a b rep c (e :: ds) h with h | h
        · exact Or.inl h
        · simp only [List.mem_cons] at h ⊢
          tauto

theorem mem_subWB2Go (a b : Char) (rep : List Char) (c : Char) :
    ∀ pw s, c ∈ subWB2Go a b rep pw s → c ∈ rep ∨ c ∈ s
  | _, [], h => by simp [subWB2Go] at h
  | _, [d], h => by simp [subWB2Go] at h; simp [h]
  | pw, d :: e :: ds, h => by
    simp only [subWB2Go] at h
    split at h
    · rcases List.mem_append.1 h with h | h
      · exact Or.inl h
      · rcases mem_subWB2Go a b rep c _ ds h with h | h
        · exact Or.inl h
        · simp [h]
    · rcases List.mem_cons.1 h with h | h
      · simp [h]
      · rcases mem_subWB2Go a b rep c _ (e :: ds) h with h | h
        · exact Or.inl h
        · simp only [List.mem_cons] at h ⊢
          tauto

theorem mem_subVovnAlef (c : Char) :
    ∀ s, c ∈ subVovnAlef s → c = phShtumer ∨ c ∈ s
  | [], h => by simp [subVovnAlef] at h
  | [d], h => by simp [subVovnAlef] at h; simp [h]
  | [d, e], h => by simp [subVovnAlef] at h; simp [h]
  | d :: e :: f :: ds, h => by
    simp only [subVovnAlef] at h
    split at h
    · rename_i hc
      rcases List.mem_cons.1 h with h | h
      · rw [h, ← hc.1]; simp
      · rcases List.mem_cons.1 h with h | h
        · simp [h]
        · rcases List.mem_cons.1 h with h | h
          · simp [h]
          · rcases mem_subVovnAlef c ds h with h | h
            · exact Or.inl h
            · simp [h]
    · rcases List.mem_cons.1 h with h | h
      · simp [h]
      · rcases mem_subVovnAlef c (e :: f :: ds) h with h | h
        · exact Or.inl h
        · simp only [List.mem_cons] at h ⊢
          tauto

theorem mem_subSonGo (t r : Char) (ca : Bool) (c : Char) :
    ∀ prev s, c ∈ subSonGo t r ca prev s → c = r ∨ c ∈ s
  | _, [], h => by simp [subSonGo] at h
  | prev, d :: ds, h => by
    simp only [subSonGo] at h
    rcases List.mem_cons.1 h with h | h
    · cases hm : sonMatch t ca prev d ds <;> rw [hm] at h <;> simp at h
      · simp [h]
      · exact Or.inl h
    · rcases mem_subSonGo t r ca c (some d) ds h with h | h
      · exact Or.inl h
      · simp [h]

theorem mem_undoInitial (c : Char) :
    ∀ s, c ∈ undoInitial s → c ∈ s ∨ c ∈ [nun, lamed]
  | [], h => by simp [undoInitial] at h
  | d :: ds, h => by
    simp only [undoInitial] at h
    split at h
    · rcases List.mem_cons.1 h with h | h
      · simp [h]
      · simp [h]
    · split at h
      · rcases List.mem_cons.1 h with h | h
        · simp [h]
        · simp [h]
      · simp [h]

/-- Any character of the rewritten word is a character of the original word
or one of the rewriter's replacement characters. -/
theorem rewriteChain (c : Char) (v t u : List Char)
    (h1 : c ∈ u → c ∈ t ∨ c ∈ rewriteIntro)
    (h2 : c ∈ t → c ∈ v ∨ c ∈ rewriteIntro) :
    c ∈ u → c ∈ v ∨ c ∈ rewriteIntro := by
  intro hu
  rcases h1 hu with h | h
  · exact h2 h
  · exact Or.inr h

theorem mem_shtumerRules (c : Char) (t : List Char) :
    c ∈ shtumerRules t → c ∈ t ∨ c ∈ rewriteIntro := by
  have wb : ∀ (a b : Char) (rep : List Char), (∀ x ∈ rep, x ∈ rewriteIntro) →
      ∀ u : List Char, c ∈ subWB2 a b rep u → c ∈ u ∨ c ∈ rewriteIntro := by
    intro a b rep hrep u hc
    rcases mem_subWB2Go a b rep c false u hc with h | h
    · exact Or.inr (hrep c h)
    · exact Or.inl h
  simp only [shtumerRules]
  refine rewriteChain c _ _ _
    (wb alef uDagesh [phShtumer, uDagesh] (by decide) _) ?_
  refine rewriteChain c _ _ _
    (wb alef pasekhYudn [phShtumer, pasekhYudn] (by decide) _) ?_
  refine rewriteChain c _ _ _
    (wb alef vovYud [phShtumer, vovYud] (by decide) _) ?_
  refine rewriteChain c _ _ _
    (wb alef tsveyYudn [phShtumer, tsveyYudn] (by decide) _) ?_
  refine rewriteChain c _ _ _
    (wb alef vov [phShtumer, vov] (by decide) _) ?_
  exact wb alef yud [phShtumer, yud] (by decide) _

theorem mem_jRules (c : Char) (t : List Char) :
    c ∈ jRules t → c ∈ t ∨ c ∈ rewriteIntro := by
  have r2 : ∀ (a b : Char) (rep : List Char), (∀ x ∈ rep, x ∈ rewriteIntro) →
      ∀ u : List Char, c ∈ replace2 a b rep u → c ∈ u ∨ c ∈ rewriteIntro := by
    intro a b rep hrep u hc
    rcases mem_replace2 a b rep c u hc with h | h
    · exact Or.inr (hrep c h)
    · exact Or.inl h
  simp only [jRules]
  refine rewriteChain c _ _ _ (r2 yud vovYud [phJ, vovYud] (by decide) _) ?_
  refine rewriteChain c _ _ _
    (r2 yud tsveyYudn [phJ, tsveyYudn] (by decide) _) ?_
  refine rewriteChain c _ _ _
    (r2 yud pasekhYudn [phJ, pasekhYudn] (by decide) _) ?_
  refine rewriteChain c _ _ _
    (r2 yud khirikYud [phJ, khirikYud] (by decide) _) ?_
  refine rewriteChain c _ _ _ (r2 yud ayin [phJ, ayin] (by decide) _) ?_
  refine rewriteChain c _ _ _ (r2 yud vov [phJ, vov] (by decide) _) ?_
  refine rewriteChain c _ _ _ (r2 yud alef [phJ, alef] (by decide) _) ?_
  refine rewriteChain c _ _ _
    (r2 yud kometsAlef [phJ, kometsAlef] (by decide) _) ?_
  exact r2 yud pasekhAlef [phJ, pasekhAlef] (by decide) _

theorem mem_sonRules (c : Char) (t : List Char) :
    c ∈ sonRules t → c ∈ t ∨ c ∈ rewriteIntro := by
  have sn : ∀ (tg r : Char) (ca : Bool), r ∈ rewriteIntro →
      ∀ u : List Char, c ∈ subSon tg r ca u → c ∈ u ∨ c ∈ rewriteIntro := by
    intro tg r ca hr u hc
    rcases mem_subSonGo tg r ca c none u hc with h | h
    · exact Or.inr (h ▸ hr)
    · exact Or.inl h
  simp only [sonRules]
  refine rewriteChain c _ _ _ (sn lamed phSylLamed true (by decide) _) ?_
  refine rewriteChain c _ _ _ (sn langNun phSylLangNun false (by decide) _) ?_
  exact sn nun phSylNun true (by decide) _

/-- Any character of the rewritten word is a character of the original word
or one of the rewriter's replacement characters. -/
theorem mem_rewriteWord (c : Char) (s : List Char)
    (h : c ∈ rewriteWord s) : c ∈ s ∨ c ∈ rewriteIntro := by
  have hva : ∀ t, c ∈ subVovnAlef t → c ∈ t ∨ c ∈ rewriteIntro := by
    intro t hc
    rcases mem_subVovnAlef c t hc with h | h
    · exact Or.inr (by rw [h]; decide)
    · exact Or.inl h
  have hui : ∀ t, c ∈ undoInitial t → c ∈ t ∨ c ∈ rewriteIntro := by
    intro t hc
    rcases mem_undoInitial c t hc with h | h
    · exact Or.inl h
    · right
      rcases List.mem_cons.1 h with h | h
      · rw [h]; decide
      · simp at h; rw [h]; decide
  simp only [rewriteWord] at h
  exact rewriteChain c _ _ _ (hui _)
    (rewriteChain c _ _ _ (mem_sonRules c _)
      (rewriteChain c _ _ _ (mem_jRules c _)
        (rewriteChain c _ _ _ (hva _) (mem_shtumerRules c _)))) h

/-! ### Lemmas about delBars, chunksBy, splitOnBar and takeWhile -/

theorem delBars_cons_ne (c : Char) (s : List Char) (h : c ≠ bar) :
    delBars (c :: s) = c :: delBars s := by
  simp [delBars, h]

theorem delBars_cons_bar (s : List Char) :
    delBars (bar :: s) = delBars s := by
  simp [delBars]

theorem delBars_append (a b : List Char) :
    delBars (a ++ b) = delBars a ++ delBars b :=
  List.filter_append a b

theorem delBars_eq_self (s : List Char) (h : bar ∉ s) : delBars s = s := by
  apply List.filter_eq_self.2
  intro c hc
  simp only [decide_eq_true_eq]
  intro he
  exact h (he ▸ hc)

theorem mem_delBars (c : Char) (s : List Char) :
    c ∈ delBars s ↔ c ∈ s ∧ c ≠ bar := by
  simp [delBars]

theorem nil_not_mem_chunksBy (f : Char → Bool) :
    ∀ s, [] ∉ chunksBy f s
  | [] => by simp [chunksBy]
  | c :: cs => by
    have ih := nil_not_mem_chunksBy f cs
    cases h : chunksBy f cs with
    | nil => simp [chunksBy, h]
    | cons q qs =>
      rw [h] at ih
      cases q with
      | nil => simp at ih
      | cons d r' =>
        simp only [chunksBy, h]
        split <;> simp_all

theorem flatten_chunksBy (f : Char → Bool) :
    ∀ s, (chunksBy f s).flatten = s
  | [] => rfl
  | c :: cs => by
    have ih := flatten_chunksBy f cs
    have hnil := nil_not_mem_chunksBy f cs
    cases h : chunksBy f cs with
    | nil =>
      rw [h] at ih; simp at ih
      simp [chunksBy, h, ← ih]
    | cons q qs =>
      rw [h] at ih hnil
      cases q with
      | nil => simp at hnil
      | cons d r' =>
        simp only [chunksBy, h]
        split <;> simp_all

theorem chunksBy_uniform (f : Char → Bool) :
    ∀ s r, r ∈ chunksBy f s → ∀ c ∈ r, ∀ d ∈ r, f c = f d
  | [], r, hr => by simp [chunksBy] at hr
  | c :: cs, r, hr => by
    have ih := chunksBy_uniform f cs
    cases h : chunksBy f cs with
    | nil =>
      simp only [chunksBy, h] at hr
      simp at hr
      subst hr; simp
    | cons q qs =>
      cases q with
      | nil =>
        have hnil := nil_not_mem_chunksBy f cs
        rw [h] at hnil; simp at hnil
      | cons d r' =>
        simp only [chunksBy, h] at hr
        have hq : ∀ x ∈ d :: r', ∀ y ∈ d :: r', f x = f y := by
          refine ih (d :: r') ?_
          rw [h]; exact List.mem_cons_self _ _
        split at hr
        · rename_i hfcd
          rcases List.mem_cons.1 hr with hr | hr
          · subst hr
            intro x hx y hy
            have key : ∀ z, z ∈ c :: d :: r' → f z = f c := by
              intro z hz
              rcases List.mem_cons.1 hz with hz | hz
              · rw [hz]
              · rw [hq z hz d (List.mem_cons_self _ _), ← hfcd]
            rw [key x hx, key y hy]
          · refine ih r ?_
            rw [h]; exact List.mem_cons_of_mem _ hr
        · rcases List.mem_cons.1 hr with hr | hr
          · subst hr
            intro x hx y hy
            simp at hx hy
            rw [hx, hy]
          · refine ih r ?_
            rw [h]; exact hr

theorem mem_of_mem_chunksBy (f : Char → Bool) (s r : List Char)
    (hr : r ∈ chunksBy f s) (c : Char) (hc : c ∈ r) : c ∈ s := by
  rw [← flatten_chunksBy f s]
  exact List.mem_flatten.2 ⟨r, hr, hc⟩

theorem splitOnBar_ne_nil : ∀ s, splitOnBar s ≠ []
  | [] => by simp [splitOnBar]
  | c :: cs => by
    simp only [splitOnBar]
    split
    · simp
    · cases h : splitOnBar cs <;> simp

theorem flatten_splitOnBar : ∀ s, (splitOnBar s).flatten = delBars s
  | [] => by simp [splitOnBar, delBars]
  | c :: cs => by
    have ih := flatten_splitOnBar cs
    simp only [splitOnBar]
    split
    · rename_i hc
      rw [hc, delBars_cons_bar]
      simp [ih]
    · rename_i hc
      rw [delBars_cons_ne c cs hc]
      cases h : splitOnBar cs with
      | nil => exact absurd h (splitOnBar_ne_nil cs)
      | cons p ps =>
        rw [h] at ih
        simp_all

theorem mem_piece_splitOnBar (s p : List Char) (hp : p ∈ splitOnBar s)
    (c : Char) (hc : c ∈ p) : c ∈ s ∧ c ≠ bar := by
  have : c ∈ (splitOnBar s).flatten := List.mem_flatten.2 ⟨p, hp, hc⟩
  rw [flatten_splitOnBar] at this
  exact (mem_delBars c s).1 this

theorem takeWhile_append_of_all (p : Char → Bool) (xs ys : List Char)
    (h : ∀ c ∈ xs, p c) :
    (xs ++ ys).takeWhile p = xs ++ ys.takeWhile p := by
  induction xs with
  | nil => simp
  | cons c cs ih =>
    simp only [List.cons_append, List.takeWhile_cons]
    rw [h c (List.mem_cons_self _ _)]
    simp only [ite_true]
    rw [ih (fun d hd => h d (List.mem_cons_of_mem _ hd))]

theorem takeWhile_append_of_stop (p : Char → Bool) (xs ys : List Char)
    (h : ∃ c ∈ xs, ¬ p c) :
    (xs ++ ys).takeWhile p = xs.takeWhile p := by
  induction xs with
  | nil => simp at h
  | cons c cs ih =>
    simp only [List.cons_append, List.takeWhile_cons]
    by_cases hc : p c
    · rw [hc]
      simp only [ite_true]
      rcases h with ⟨x, hx, hpx⟩
      rcases List.mem_cons.1 hx with hx | hx
      · exact absurd (hx ▸ hc) hpx
      · rw [ih ⟨x, hx, hpx⟩]
    · simp only [Bool.not_eq_true] at hc
      rw [hc]
      simp

/-! ### Lemmas about replace1, backSub as a character map, and separate -/

theorem replace1_single (a b : Char) :
    ∀ s, replace1 a [b] s = s.map (fun c => if c = a then b else c)
  | [] => rfl
  | c :: cs => by
    simp only [replace1, List.map_cons, replace1_single a b cs]
    by_cases hc : c = a <;> simp [hc]

theorem mem_foldl_replace1Pairs
    (rules : List (Char × Char × Char)) :
    ∀ (s : List Char) (c : Char),
      c ∈ rules.foldl
        (fun t ru => replace1 ru.1 [ru.2.1, ru.2.2] t) s →
      c ∈ s ∨ c ∈ rules.flatMap (fun ru => [ru.2.1, ru.2.2]) := by
  induction rules with
  | nil =>
    intro s c h
    simp only [List.foldl_nil] at h
    exact Or.inl h
  | cons ru rest ih =>
    intro s c h
    simp only [List.foldl_cons] at h
    rcases ih _ c h with h' | h'
    · rcases mem_replace1 ru.1 [ru.2.1, ru.2.2] c s h' with h'' | h''
      · right
        simp only [List.flatMap_cons, List.mem_append]
        exact Or.inl h''
      · exact Or.inl h''
    · right
      simp only [List.flatMap_cons, List.mem_append]
      exact Or.inr h'

/-- Any character of the separated string is a character of the input or one
of the decomposition characters of the separation table. -/
theorem mem_separateChars (c : Char) (s : List Char)
    (h : c ∈ separateChars s) :
    c ∈ s ∨ c ∈ separateTable.flatMap (fun ru => [ru.2.1, ru.2.2]) :=
  mem_foldl_replace1Pairs separateTable s c h

theorem mem_foldl_replace2Pairs
    (rules : List ((Char × Char) × Char)) :
    ∀ (s : List Char) (c : Char),
      c ∈ rules.foldl (fun t ru => replace2 ru.1.1 ru.1.2 [ru.2] t) s →
      c ∈ s ∨ c ∈ rules.map (fun ru => ru.2) := by
  induction rules with
  | nil =>
    intro s c h
    simp only [List.foldl_nil] at h
    exact Or.inl h
  | cons ru rest ih =>
    intro s c h
    simp only [List.foldl_cons] at h
    rcases ih _ c h with h' | h'
    · rcases mem_replace2 ru.1.1 ru.1.2 [ru.2] c s h' with h'' | h''
      · right
        simp only [List.map_cons, List.mem_cons]
        simp at h''
        exact Or.inl h''
      · exact Or.inl h''
    · right
      simp only [List.map_cons, List.mem_cons]
      exact Or.inr h'

/-- Any character of the combined string is a character of the input or one
of the precomposed characters of the combination table. -/
theorem mem_combineChars (c : Char) (s : List Char)
    (h : c ∈ combineChars s) :
    c ∈ s ∨ c ∈ combineTable.map (fun ru => ru.2) :=
  mem_foldl_replace2Pairs combineTable s c h

theorem backSub_eq_map (s : List Char) : backSub s = s.map backSubChar := by
  simp only [backSub, replace1_single, List.map_map]
  apply List.map_congr_left
  intro c _
  simp only [Function.comp]
  by_cases h1 : c = phJ
  · subst h1; simp [backSubChar]; decide
  · by_cases h2 : c = phSylNun
    · subst h2; simp [backSubChar]; decide
    · by_cases h3 : c = phSylLangNun
      · subst h3; simp [backSubChar]; decide
      · by_cases h4 : c = phSylLamed
        · subst h4; simp [backSubChar]; decide
        · by_cases h5 : c = phShtumer
          · subst h5; simp [backSubChar]; decide
          · simp [backSubChar, h1, h2, h3, h4, h5]

theorem backSubChar_eq_self (c : Char)
    (h : c ∉ [phJ, phSylNun, phSylLangNun, phSylLamed, phShtumer]) :
    backSubChar c = c := by
  simp only [List.mem_cons, List.not_mem_nil, or_false, not_or] at h
  obtain ⟨h1, h2, h3, h4, h5⟩ := h
  simp [backSubChar, h1, h2, h3, h4, h5]

theorem backSub_eq_self (s : List Char)
    (h : ∀ c ∈ s, c ∉ [phJ, phSylNun, phSylLangNun, phSylLamed, phShtumer]) :
    backSub s = s := by
  rw [backSub_eq_map]
  rw [show s.map backSubChar = s.map id from
    List.map_congr_left fun c hc => backSubChar_eq_self c (h c hc)]
  exact List.map_id s

/-! ### The rewriter does not change the back-substituted string -/

theorem map_replace2 (f : Char → Char) (a b : Char) (rep : List Char)
    (h : rep.map f = [f a, f b]) :
    ∀ s, (replace2 a b rep s).map f = s.map f
  | [] => rfl
  | [c] => rfl
  | c :: d :: cs => by
    simp only [replace2]
    split
    · rename_i hcd
      simp only [List.map_append, h, map_replace2 f a b rep h cs]
      simp [hcd.1, hcd.2]
    · simp only [List.map_cons, map_replace2 f a b rep h (d :: cs)]

theorem map_subWB2Go (f : Char → Char) (a b : Char) (rep : List Char)
    (h : rep.map f = [f a, f b]) :
    ∀ pw s, (subWB2Go a b rep pw s).map f = s.map f
  | _, [] => rfl
  | _, [c] => rfl
  | pw, c :: d :: cs => by
    simp only [subWB2Go]
    split
    · rename_i hcd
      simp only [List.map_append, h, map_subWB2Go f a b rep h _ cs]
      simp [hcd.2.1, hcd.2.2]
    · simp only [List.map_cons, map_subWB2Go f a b rep h _ (d :: cs)]

theorem map_subVovnAlef (f : Char → Char) (h : f phShtumer = f alef) :
    ∀ s, (subVovnAlef s).map f = s.map f
  | [] => rfl
  | [c] => rfl
  | [c, d] => rfl
  | c :: d :: e :: cs => by
    simp only [subVovnAlef]
    split
    · rename_i hcd
      simp only [List.map_cons, map_subVovnAlef f h cs]
      rw [h, hcd.1, hcd.2.1]
    · simp only [List.map_cons, map_subVovnAlef f h (d :: e :: cs)]

theorem sonMatch_eq_target (t : Char) (ca : Bool) (prev : Option Char)
    (c : Char) (rest : List Char) (h : sonMatch t ca prev c rest = true) :
    c = t := by
  simp only [sonMatch, Bool.and_eq_true, beq_iff_eq] at h
  exact h.1.1

theorem map_subSonGo (f : Char → Char) (t r : Char) (ca : Bool)
    (h : f r = f t) :
    ∀ prev s, (subSonGo t r ca prev s).map f = s.map f
  | _, [] => rfl
  | prev, c :: cs => by
    simp only [subSonGo, List.map_cons, map_subSonGo f t r ca h (some c) cs]
    cases hm : sonMatch t ca prev c cs
    · simp
    · have := sonMatch_eq_target t ca prev c cs hm
      subst this
      simp [h]

theorem map_undoInitial (f : Char → Char)
    (h1 : f nun = f phSylNun) (h2 : f lamed = f phSylLamed) :
    ∀ s, (undoInitial s).map f = s.map f
  | [] => rfl
  | c :: cs => by
    simp only [undoInitial]
    split
    · rename_i hc
      simp [hc, h1]
    · split
      · rename_i hc
        simp [hc, h2]
      · rfl

/-- Back-substituting the rewritten word gives the back-substitution of the
word itself: every rewrite writes characters that back-substitute to what
the replaced characters back-substitute to. -/
theorem backSub_rewriteWord (s : List Char) :
    backSub (rewriteWord s) = backSub s := by
  simp only [backSub_eq_map, rewriteWord]
  rw [map_undoInitial backSubChar (by decide) (by decide)]
  simp only [sonRules, subSon]
  rw [map_subSonGo backSubChar lamed phSylLamed true (by decide) none]
  rw [map_subSonGo backSubChar langNun phSylLangNun false (by decide) none]
  rw [map_subSonGo backSubChar nun phSylNun true (by decide) none]
  simp only [jRules]
  rw [map_replace2 backSubChar yud vovYud [phJ, vovYud] (by decide)]
  rw [map_replace2 backSubChar yud tsveyYudn [phJ, tsveyYudn] (by decide)]
  rw [map_replace2 backSubChar yud pasekhYudn [phJ, pasekhYudn] (by decide)]
  rw [map_replace2 backSubChar yud khirikYud [phJ, khirikYud] (by decide)]
  rw [map_replace2 backSubChar yud ayin [phJ, ayin] (by decide)]
  rw [map_replace2 backSubChar yud vov [phJ, vov] (by decide)]
  rw [map_replace2 backSubChar yud alef [phJ, alef] (by decide)]
  rw [map_replace2 backSubChar yud kometsAlef [phJ, kometsAlef] (by decide)]
  rw [map_replace2 backSubChar yud pasekhAlef [phJ, pasekhAlef] (by decide)]
  rw [show (subVovnAlef (shtumerRules s)).map backSubChar
      = (shtumerRules s).map backSubChar from
    map_subVovnAlef backSubChar (by decide) _]
  simp only [shtumerRules, subWB2]
  rw [map_subWB2Go backSubChar alef uDagesh [phShtumer, uDagesh] (by decide)]
  rw [map_subWB2Go backSubChar alef pasekhYudn [phShtumer, pasekhYudn] (by decide)]
  rw [map_subWB2Go backSubChar alef vovYud [phShtumer, vovYud] (by decide)]
  rw [map_subWB2Go backSubChar alef tsveyYudn [phShtumer, tsveyYudn] (by decide)]
  rw [map_subWB2Go backSubChar alef vov [phShtumer, vov] (by decide)]
  rw [map_subWB2Go backSubChar alef yud [phShtumer, yud] (by decide)]

/-! ### delBars commutes with separateChars and with backSub -/

theorem delBars_replace1 (a : Char) (rep : List Char)
    (ha : a ≠ bar) (hrep : bar ∉ rep) :
    ∀ s, delBars (replace1 a rep s) = replace1 a rep (delBars s)
  | [] => rfl
  | c :: cs => by
    by_cases hc : c = a
    · have h1 : replace1 a rep (c :: cs) = rep ++ replace1 a rep cs := by
        simp [replace1, hc]
      have h2 : delBars (c :: cs) = c :: delBars cs :=
        delBars_cons_ne c cs (by rw [hc]; exact ha)
      have h3 : replace1 a rep (c :: delBars cs) =
          rep ++ replace1 a rep (delBars cs) := by
        simp [replace1, hc]
      rw [h1, delBars_append, delBars_eq_self rep hrep, h2, h3,
        delBars_replace1 a rep ha hrep cs]
    · have h1 : replace1 a rep (c :: cs) = c :: replace1 a rep cs := by
        simp [replace1, hc]
      by_cases hb : c = bar
      · have h2 : delBars (c :: cs) = delBars cs := by
          rw [hb]; exact delBars_cons_bar cs
        have h3 : delBars (c :: replace1 a rep cs) =
            delBars (replace1 a rep cs) := by
          rw [hb]; exact delBars_cons_bar _
        rw [h1, h3, h2, delBars_replace1 a rep ha hrep cs]
      · have h2 : delBars (c :: cs) = c :: delBars cs :=
          delBars_cons_ne c cs hb
        have h3 : delBars (c :: replace1 a rep cs) =
            c :: delBars (replace1 a rep cs) := delBars_cons_ne _ _ hb
        have h4 : replace1 a rep (c :: delBars cs) =
            c :: replace1 a rep (delBars cs) := by
          simp [replace1, hc]
        rw [h1, h3, h2, h4, delBars_replace1 a rep ha hrep cs]

theorem delBars_sepFold (rules : List (Char × Char × Char))
    (hr : ∀ ru ∈ rules, ru.1 ≠ bar ∧ ru.2.1 ≠ bar ∧ ru.2.2 ≠ bar) :
    ∀ s, delBars (rules.foldl
        (fun t ru => replace1 ru.1 [ru.2.1, ru.2.2] t) s) =
      rules.foldl (fun t ru => replace1 ru.1 [ru.2.1, ru.2.2] t) (delBars s) := by
  induction rules with
  | nil => intro s; rfl
  | cons ru rest ih =>
    intro s
    simp only [List.foldl_cons]
    rw [ih (fun x hx => hr x (List.mem_cons_of_mem _ hx))]
    rw [delBars_replace1 ru.1 [ru.2.1, ru.2.2]
      (hr ru (List.mem_cons_self _ _)).1 ?_]
    intro hmem
    rcases List.mem_cons.1 hmem with h | h
    · exact (hr ru (List.mem_cons_self _ _)).2.1 h.symm
    · simp at h
      exact (hr ru (List.mem_cons_self _ _)).2.2 h.symm

/-- Deleting bars commutes with character separation. -/
theorem delBars_separateChars (s : List Char) :
    delBars (separateChars s) = separateChars (delBars s) :=
  delBars_sepFold separateTable (by decide) s

/-- Deleting bars commutes with the placeholder back-substitution. -/
theorem delBars_backSub (s : List Char) :
    delBars (backSub s) = backSub (delBars s) := by
  rw [backSub_eq_map, backSub_eq_map]
  induction s with
  | nil => rfl
  | cons c cs ih =>
    by_cases hc : c = bar
    · subst hc
      rw [delBars_cons_bar, List.map_cons]
      rw [show backSubChar bar = bar from by decide, delBars_cons_bar, ih]
    · rw [delBars_cons_ne c cs hc, List.map_cons, List.map_cons]
      rw [delBars_cons_ne _ _ ?_, ih]
      intro he
      apply hc
      by_cases h1 : c = phJ
      · rw [h1] at he; exact absurd he (by decide)
      · by_cases h2 : c = phSylNun
        · rw [h2] at he; exact absurd he (by decide)
        · by_cases h3 : c = phSylLangNun
          · rw [h3] at he; exact absurd he (by decide)
          · by_cases h4 : c = phSylLamed
            · rw [h4] at he; exact absurd he (by decide)
            · by_cases h5 : c = phShtumer
              · rw [h5] at he; exact absurd he (by decide)
              · rw [backSubChar, if_neg h1, if_neg h2, if_neg h3,
                  if_neg h4, if_neg h5] at he
                exact he

/-! ### The assigner preserves the letters of the word -/

theorem syllsChars_append (a b : List Syllable) :
    syllsChars (a ++ b) = syllsChars a ++ syllsChars b := by
  simp [syllsChars]

theorem appendCodaLast_chars :
    ∀ (sylls : List Syllable) (coda : List Char), sylls ≠ [] →
      syllsChars (appendCodaLast sylls coda) = syllsChars sylls ++ coda
  | [], _, h => absurd rfl h
  | [s], coda, _ => by
    simp [appendCodaLast, syllsChars, sylChars]
  | s :: s2 :: ss, coda, _ => by
    have ih := appendCodaLast_chars (s2 :: ss) coda (by simp)
    simp only [appendCodaLast]
    simp only [syllsChars, List.map_cons, List.flatten_cons] at ih ⊢
    rw [ih]
    simp [List.append_assoc]

theorem splitRunGo_append (pats : PatternSet) :
    ∀ (run codaAcc : List Char),
      (splitRunGo pats codaAcc run).1 ++ (splitRunGo pats codaAcc run).2 =
        codaAcc ++ run
  | [], codaAcc => by simp [splitRunGo]
  | r :: rs, codaAcc => by
    simp only [splitRunGo]
    split
    · rfl
    · rw [splitRunGo_append pats rs (codaAcc ++ [r])]
      simp

theorem splitRun_append (pats : PatternSet) (run : List Char) :
    (splitRun pats run).1 ++ (splitRun pats run).2 = run :=
  splitRunGo_append pats run []

theorem assignGo_chars (pats : PatternSet) :
    ∀ (w : List Char) (sylls : List Syllable) (run : List Char)
      (out : List Syllable), assignGo pats sylls run w = some out →
      syllsChars out = syllsChars sylls ++ run ++ w
  | [], sylls, run, out, h => by
    simp only [assignGo] at h
    cases sylls with
    | nil => simp at h
    | cons a as =>
      simp only [Option.some.injEq] at h
      subst h
      rw [appendCodaLast_chars (a :: as) run (by simp)]
      simp
  | c :: cs, sylls, run, out, h => by
    simp only [assignGo] at h
    split at h
    · cases sylls with
      | nil =>
        simp only at h
        have ih := assignGo_chars pats cs [⟨run, c, []⟩] [] out h
        rw [ih]
        simp [syllsChars, sylChars]
      | cons a as =>
        simp only at h
        have ih := assignGo_chars pats cs
          (appendCodaLast (a :: as) (splitRun pats run).1 ++
            [⟨(splitRun pats run).2, c, []⟩]) [] out h
        rw [ih, syllsChars_append,
          appendCodaLast_chars (a :: as) (splitRun pats run).1 (by simp)]
        have hsr := splitRun_append pats run
        simp only [syllsChars, List.map_cons, List.map_nil,
          List.flatten_cons, List.flatten_nil, sylChars]
        simp only [List.append_nil, List.append_assoc]
        rw [← List.append_assoc (splitRun pats run).1, hsr]
        simp
    · split at h
      · have ih := assignGo_chars pats cs sylls (run ++ [c]) out h
        rw [ih]
        simp
      · simp at h

/-- A successful assignment's syllables spell out exactly the input word. -/
theorem assign_chars (pats : PatternSet) (w : List Char)
    (sylls : List Syllable) (h : assign pats w = some sylls) :
    syllsChars sylls = w := by
  have := assignGo_chars pats w [] [] sylls h
  simpa [syllsChars] using this

/-! ### Lemmas about buildResult and stripTrailingBar -/

theorem buildResult_eq_foldl (sylls : List Syllable) :
    buildResult sylls = sylls.foldl buildStep [] := rfl

theorem delBars_buildStep (acc : List Char) (syl : Syllable)
    (h : bar ∉ sylChars syl) :
    delBars (buildStep acc syl) = delBars acc ++ sylChars syl := by
  simp only [buildStep]
  split
  · rw [delBars_append, delBars_append, delBars_eq_self _ h]
    simp [delBars]
  · rw [delBars_append, delBars_eq_self _ h]

theorem delBars_buildGo :
    ∀ (sylls : List Syllable) (acc : List Char),
      bar ∉ syllsChars sylls →
      delBars (sylls.foldl buildStep acc) = delBars acc ++ syllsChars sylls
  | [], acc, _ => by simp [syllsChars]
  | s :: rest, acc, h => by
    have hsplit : syllsChars (s :: rest) = sylChars s ++ syllsChars rest := by
      simp [syllsChars]
    rw [hsplit] at h
    simp only [List.mem_append] at h
    push_neg at h
    simp only [List.foldl_cons]
    rw [delBars_buildGo rest (buildStep acc s) h.2,
      delBars_buildStep acc s h.1, hsplit, List.append_assoc]

/-- Deleting the bars from the built result gives back the syllable letters. -/
theorem delBars_buildResult (sylls : List Syllable)
    (h : bar ∉ syllsChars sylls) :
    delBars (buildResult sylls) = syllsChars sylls := by
  rw [buildResult_eq_foldl, delBars_buildGo sylls [] h]
  rfl

theorem firstBar_buildGo :
    ∀ (sylls : List Syllable) (acc : List Char),
      bar ∉ syllsChars sylls →
      (bar ∈ acc → 2 ≤ (acc.takeWhile (fun c => c ≠ bar)).length) →
      bar ∈ sylls.foldl buildStep acc →
      2 ≤ ((sylls.foldl buildStep acc).takeWhile (fun c => c ≠ bar)).length
  | [], acc, _, hacc, hb => hacc hb
  | s :: rest, acc, h, hacc, hb => by
    have hsplit : syllsChars (s :: rest) = sylChars s ++ syllsChars rest := by
      simp [syllsChars]
    rw [hsplit] at h
    simp only [List.mem_append] at h
    push_neg at h
    simp only [List.foldl_cons] at hb ⊢
    refine firstBar_buildGo rest (buildStep acc s) h.2 ?_ hb
    intro hbs
    simp only [buildStep] at hbs ⊢
    by_cases hacc' : bar ∈ acc
    · have htw : ∀ ys, ((acc ++ ys).takeWhile (fun c => c ≠ bar)) =
          acc.takeWhile (fun c => c ≠ bar) := by
        intro ys
        exact takeWhile_append_of_stop _ acc ys ⟨bar, hacc', by simp⟩
      split
      · rw [List.append_assoc, htw]
        exact hacc hacc'
      · rw [htw]
        exact hacc hacc'
    · have hfree : ∀ c ∈ acc ++ sylChars s, (fun c => decide (c ≠ bar)) c := by
        intro c hc
        simp only [decide_eq_true_eq]
        rcases List.mem_append.1 hc with hc | hc
        · exact fun he => hacc' (he ▸ hc)
        · exact fun he => h.1 (he ▸ hc)
      split at hbs
      · rename_i hlen
        split
        · rw [takeWhile_append_of_all _ (acc ++ sylChars s) [bar] hfree]
          simp only [List.takeWhile_cons]
          simp only [decide_not, decide_True, Bool.not_true]
          rw [List.length_append]
          simp only [List.takeWhile_nil]
          omega
        · omega
      · rcases List.mem_append.1 hbs with hbs | hbs
        · exact absurd hbs hacc'
        · exact absurd hbs h.1

/-- A bar in the built result never follows a single leading letter: the
segment before the first bar has at least two characters. -/
theorem firstBar_buildResult (sylls : List Syllable)
    (h : bar ∉ syllsChars sylls) (hb : bar ∈ buildResult sylls) :
    2 ≤ ((buildResult sylls).takeWhile (fun c => c ≠ bar)).length := by
  rw [buildResult_eq_foldl] at hb ⊢
  exact firstBar_buildGo sylls [] h (by simp) hb

theorem delBars_stripTrailingBar (s : List Char) :
    delBars (stripTrailingBar s) = delBars s := by
  unfold stripTrailingBar
  cases hl : s.getLast? with
  | none => rfl
  | some c =>
    simp only
    by_cases hc : c = bar
    · rw [if_pos hc]
      have hne : s ≠ [] := by
        intro he; rw [he] at hl; simp at hl
      have heq : s.dropLast ++ [s.getLast hne] = s :=
        List.dropLast_append_getLast hne
      have h2 := List.getLast?_eq_getLast s hne
      rw [hl] at h2
      have hlast : s.getLast hne = bar := by
        rw [← Option.some.inj h2]; exact hc
      conv_rhs => rw [← heq]
      rw [delBars_append, hlast]
      simp [delBars]
    · rw [if_neg hc]

theorem mem_stripTrailingBar (c : Char) (s : List Char)
    (h : c ∈ stripTrailingBar s) : c ∈ s := by
  unfold stripTrailingBar at h
  cases hl : s.getLast? with
  | none => rw [hl] at h; exact h
  | some d =>
    rw [hl] at h
    simp only at h
    split at h
    · exact List.dropLast_subset s h
    · exact h

theorem takeWhile_stripTrailingBar (s : List Char)
    (h : bar ∈ stripTrailingBar s) :
    (stripTrailingBar s).takeWhile (fun c => c ≠ bar) =
      s.takeWhile (fun c => c ≠ bar) := by
  unfold stripTrailingBar at h ⊢
  cases hl : s.getLast? with
  | none => rfl
  | some d =>
    rw [hl] at h
    simp only at h ⊢
    by_cases hd : d = bar
    · rw [if_pos hd] at h ⊢
      have hne : s ≠ [] := by
        intro he; rw [he] at hl; simp at hl
      have heq : s.dropLast ++ [s.getLast hne] = s :=
        List.dropLast_append_getLast hne
      conv_rhs => rw [← heq]
      exact (takeWhile_append_of_stop _ _ _ ⟨bar, h, by simp⟩).symm
    · rw [if_neg hd]

/-! ### Lemmas about the prefix stripper -/

theorem prefix_append_drop (p w : List Char) (h : p.isPrefixOf w = true) :
    p ++ w.drop p.length = w := by
  rcases List.isPrefixOf_iff_prefix.1 h with ⟨t, rfl⟩
  rw [List.drop_left]

theorem stripFirstProper_none (t : List (List Char)) (w : List Char)
    (h : (stripFirstProper t w).1 = none) :
    (stripFirstProper t w).2 = w := by
  unfold stripFirstProper at h ⊢
  split at h <;> rename_i hcond
  · cases hf : t.find? (fun p => p.isPrefixOf w && !(w == p)) with
    | none => rw [if_pos hcond]
    | some p => rw [hf] at h; simp at h
  · rw [if_neg hcond]

theorem stripFirstProper_some (t : List (List Char)) (w p : List Char)
    (h : (stripFirstProper t w).1 = some p) :
    p ∈ t ∧ p.isPrefixOf w = true ∧ w ≠ p ∧
      (stripFirstProper t w).2 = w.drop p.length := by
  unfold stripFirstProper at h ⊢
  split at h <;> rename_i hcond
  · cases hf : t.find? (fun p => p.isPrefixOf w && !(w == p)) with
    | none => rw [hf] at h; simp at h
    | some q =>
      rw [hf] at h
      simp only [Option.some.injEq] at h
      subst h
      have hpq := List.find?_some hf
      simp only [Bool.and_eq_true, Bool.not_eq_true', beq_eq_false_iff_ne,
        ne_eq] at hpq
      refine ⟨List.mem_of_find?_eq_some hf, hpq.1, hpq.2, ?_⟩
      rw [if_pos hcond]
  · simp at h

theorem mem_stripRest (t : List (List Char)) (w : List Char) (c : Char)
    (h : c ∈ (stripFirstProper t w).2) : c ∈ w := by
  cases h1 : (stripFirstProper t w).1 with
  | none => rw [stripFirstProper_none t w h1] at h; exact h
  | some p =>
    rw [(stripFirstProper_some t w p h1).2.2.2] at h
    exact List.drop_subset _ _ h

/-! ### Table facts -/

theorem genPats_prefixTable (sys : String) :
    (generatePatterns sys).prefixTable = thePrefixTable := rfl

/-- Every registered prefix has at least two characters. -/
theorem prefixTable_len : ∀ p ∈ thePrefixTable, 2 ≤ p.length := by decide

/-- No registered prefix contains a bar or a placeholder character. -/
theorem prefixTable_chars : ∀ p ∈ thePrefixTable, ∀ c ∈ p,
    c ≠ bar ∧ c ∉ [phJ, phSylNun, phSylLangNun, phSylLamed, phShtumer] := by
  decide

theorem bar_not_wordChar : isWordChar bar = false := by decide

theorem bar_not_rewriteIntro : bar ∉ rewriteIntro := by decide

/-! ### The per-run and per-word letter-preservation lemmas -/

/-- Deleting bars from a successfully processed word run gives back the run. -/
theorem delBars_processWordRun (pats : PatternSet)
    (hpt : pats.prefixTable = thePrefixTable)
    (sub r : List Char)
    (hw : ∀ c ∈ sub, isWordChar c = true)
    (hph : ∀ c ∈ sub, c ∉ [phJ, phSylNun, phSylLangNun, phSylLamed, phShtumer])
    (h : processWordRun pats sub = some r) :
    delBars r = sub := by
  unfold processWordRun at h
  cases ha : assign pats (strippedRewritten pats sub) with
  | none => rw [ha] at h; simp at h
  | some sylls =>
    rw [ha] at h
    simp only [Option.some.injEq] at h
    subst h
    have hrw : syllsChars sylls =
        rewriteWord (stripFirstProper pats.prefixTable sub).2 :=
      assign_chars pats _ sylls ha
    have hrestsub : ∀ c ∈ (stripFirstProper pats.prefixTable sub).2, c ∈ sub :=
      fun c hc => mem_stripRest _ _ c hc
    have hbar_rw : bar ∉ rewriteWord (stripFirstProper pats.prefixTable sub).2 := by
      intro hb
      rcases mem_rewriteWord bar _ hb with hb | hb
      · have := hw bar (hrestsub bar hb)
        rw [bar_not_wordChar] at this
        exact absurd this (by decide)
      · exact absurd hb bar_not_rewriteIntro
    have hsyl : bar ∉ syllsChars sylls := by rw [hrw]; exact hbar_rw
    rw [delBars_stripTrailingBar, delBars_backSub]
    cases hp : (stripFirstProper pats.prefixTable sub).1 with
    | none =>
      have h2 := stripFirstProper_none _ _ hp
      simp only
      rw [delBars_buildResult sylls hsyl, hrw, backSub_rewriteWord, h2]
      exact backSub_eq_self sub hph
    | some p =>
      obtain ⟨hmem, hpre, hne, hdrop⟩ := stripFirstProper_some _ _ p hp
      rw [hpt] at hmem
      have hpbar : bar ∉ p := by
        intro hb
        exact (prefixTable_chars p hmem bar hb).1 rfl
      have hpph : ∀ c ∈ p, c ∉ [phJ, phSylNun, phSylLangNun, phSylLamed,
          phShtumer] := fun c hc => (prefixTable_chars p hmem c hc).2
      simp only
      rw [delBars_append, delBars_cons_bar, delBars_buildResult sylls hsyl,
        delBars_eq_self p hpbar, hrw]
      rw [backSub_eq_map, List.map_append, ← backSub_eq_map, ← backSub_eq_map]
      rw [backSub_rewriteWord, backSub_eq_self p hpph,
        backSub_eq_self _ (fun c hc => hph c (hrestsub c hc)), hdrop]
      exact prefix_append_drop p sub hpre

theorem delBars_runsFold (pats : PatternSet)
    (hpt : pats.prefixTable = thePrefixTable) :
    ∀ (runs : List (List Char)) (acc : List (List Char)),
      (∀ run ∈ runs, goodRun pats run) →
      delBars ((runs.foldl (asbStep pats) acc).flatten) =
      delBars acc.flatten ++ runs.flatten
  | [], acc, _ => by simp
  | run :: rest, acc, hgood => by
    have hrun := hgood run (List.mem_cons_self _ _)
    have hrest : ∀ q ∈ rest, goodRun pats q :=
      fun q hq => hgood q (List.mem_cons_of_mem _ hq)
    simp only [List.foldl_cons]
    by_cases hword : runIsWord run = true
    · obtain ⟨hchars, hph, hsucc⟩ := hrun.1 hword
      cases hpr : processWordRun pats run with
      | none => exact absurd hpr hsucc
      | some r =>
        have hstep : asbStep pats acc run = acc ++ [r] := by
          unfold asbStep
          rw [hword, hpr]
          simp
        rw [hstep]
        rw [delBars_runsFold pats hpt rest (acc ++ [r]) hrest]
        rw [List.flatten_append, delBars_append]
        simp only [List.flatten_cons, List.flatten_nil, List.append_nil]
        rw [delBars_processWordRun pats hpt run r hchars hph hpr]
        simp [List.append_assoc]
    · simp only [Bool.not_eq_true] at hword
      have hstep : asbStep pats acc run = acc ++ [run] := by
        unfold asbStep
        rw [hword]
        simp
      rw [hstep]
      rw [delBars_runsFold pats hpt rest (acc ++ [run]) hrest]
      rw [List.flatten_append, delBars_append]
      simp only [List.flatten_cons, List.flatten_nil, List.append_nil]
      rw [delBars_eq_self run hrun.2]
      simp [List.append_assoc]

/-- Deleting bars from the joined output of add-syllable-boundaries gives
back the word, provided every word run processes successfully. -/
theorem delBars_addSyllableBoundaries (pats : PatternSet)
    (hpt : pats.prefixTable = thePrefixTable) (w : List Char)
    (hbar : bar ∉ w)
    (hph : ∀ c ∈ w, c ∉ [phJ, phSylNun, phSylLangNun, phSylLamed, phShtumer])
    (hsucc : ∀ run ∈ findRuns w, runIsWord run = true →
      processWordRun pats run ≠ none) :
    delBars (addSyllableBoundaries pats w).flatten = w := by
  unfold addSyllableBoundaries
  split
  · simp only [List.flatten_cons, List.flatten_nil, List.append_nil]
    exact delBars_eq_self w hbar
  · have hgood : ∀ run ∈ findRuns w, goodRun pats run := by
      intro run hmem
      constructor
      · intro hword
        have hsubw : ∀ c ∈ run, c ∈ w :=
          fun c hc => mem_of_mem_chunksBy isWordChar w run hmem c hc
        have hchars : ∀ c ∈ run, isWordChar c = true := by
          cases run with
          | nil => intro c hc; simp at hc
          | cons d ds =>
            intro c hc
            have := chunksBy_uniform isWordChar w (d :: ds) hmem c hc d
              (List.mem_cons_self _ _)
            rw [this]
            exact hword
        exact ⟨hchars, fun c hc => hph c (hsubw c hc), hsucc run hmem hword⟩
      · intro hb
        exact hbar (mem_of_mem_chunksBy isWordChar w run hmem bar hb)
    have := delBars_runsFold pats hpt (findRuns w) [] hgood
    simp only [List.flatten_nil] at this
    rw [this]
    simp [flatten_chunksBy, findRuns, delBars]

/-! ### Character-membership bound for the whole pipeline -/

theorem rewriteIntro_sub : ∀ c ∈ rewriteIntro, c ∈ syllabifyIntro := by
  decide

theorem combineOuts_sub :
    ∀ c ∈ combineTable.map (fun ru => ru.2), c ∈ syllabifyIntro := by
  decide

theorem separateOuts_sub :
    ∀ c ∈ separateTable.flatMap (fun ru => [ru.2.1, ru.2.2]),
      c ∈ syllabifyIntro := by
  decide

theorem backSubOuts_sub :
    ∀ c ∈ [yud, nun, langNun, lamed, alef], c ∈ syllabifyIntro := by
  decide

theorem bar_mem_syllabifyIntro : bar ∈ syllabifyIntro := by decide

theorem backSubChar_mem (d : Char) :
    backSubChar d = d ∨ backSubChar d ∈ [yud, nun, langNun, lamed, alef] := by
  by_cases h1 : d = phJ
  · subst h1; right; decide
  · by_cases h2 : d = phSylNun
    · subst h2; right; decide
    · by_cases h3 : d = phSylLangNun
      · subst h3; right; decide
      · by_cases h4 : d = phSylLamed
        · subst h4; right; decide
        · by_cases h5 : d = phShtumer
          · subst h5; right; decide
          · left; simp [backSubChar, h1, h2, h3, h4, h5]

theorem mem_buildGo (c : Char) :
    ∀ (sylls : List Syllable) (acc : List Char),
      c ∈ sylls.foldl buildStep acc →
      c ∈ acc ∨ c ∈ syllsChars sylls ∨ c = bar
  | [], acc, h => Or.inl h
  | s :: rest, acc, h => by
    rcases mem_buildGo c rest (buildStep acc s) h with h' | h' | h'
    · simp only [buildStep] at h'
      have hsub : c ∈ acc ++ sylChars s → c ∈ acc ∨ c ∈ syllsChars (s :: rest) ∨ c = bar := by
        intro hc
        rcases List.mem_append.1 hc with hc | hc
        · exact Or.inl hc
        · right; left; simp [syllsChars]; exact Or.inl hc
      split at h'
      · rcases List.mem_append.1 h' with h' | h'
        · exact hsub h'
        · simp at h'; exact Or.inr (Or.inr h')
      · exact hsub h'
    · right; left
      simp only [syllsChars, List.map_cons, List.flatten_cons, List.mem_append]
      right
      simpa [syllsChars] using h'
    · exact Or.inr (Or.inr h')

theorem mem_buildResult (c : Char) (sylls : List Syllable)
    (h : c ∈ buildResult sylls) : c ∈ syllsChars sylls ∨ c = bar := by
  rw [buildResult_eq_foldl] at h
  rcases mem_buildGo c sylls [] h with h' | h' | h'
  · simp at h'
  · exact Or.inl h'
  · exact Or.inr h'

/-- Characters of a successfully processed run come from the run itself or
from the fixed introduction set. -/
theorem mem_processWordRun (pats : PatternSet) (sub r : List Char)
    (h : processWordRun pats sub = some r) (c : Char) (hc : c ∈ r) :
    c ∈ sub ∨ c ∈ syllabifyIntro := by
  unfold processWordRun at h
  cases ha : assign pats (strippedRewritten pats sub) with
  | none => rw [ha] at h; simp at h
  | some sylls =>
    rw [ha] at h
    simp only [Option.some.injEq] at h
    subst h
    have hsyl : ∀ d, d ∈ syllsChars sylls → d ∈ sub ∨ d ∈ syllabifyIntro := by
      intro d hd
      rw [assign_chars pats _ sylls ha] at hd
      rcases mem_rewriteWord d _ hd with hd | hd
      · exact Or.inl (mem_stripRest _ _ d hd)
      · exact Or.inr (rewriteIntro_sub d hd)
    have hres1 : ∀ d, d ∈ (match (stripFirstProper pats.prefixTable sub).1 with
        | some p => p ++ bar :: buildResult sylls
        | none => buildResult sylls) → d ∈ sub ∨ d ∈ syllabifyIntro ∨ d = bar := by
      intro d hd
      cases hp : (stripFirstProper pats.prefixTable sub).1 with
      | none =>
        rw [hp] at hd
        simp only at hd
        rcases mem_buildResult d sylls hd with hd | hd
        · rcases hsyl d hd with hd | hd
          · exact Or.inl hd
          · exact Or.inr (Or.inl hd)
        · exact Or.inr (Or.inr hd)
      | some p =>
        rw [hp] at hd
        simp only at hd
        rcases List.mem_append.1 hd with hd | hd
        · obtain ⟨_, hpre, _, _⟩ := stripFirstProper_some _ _ p hp
          left
          exact (List.isPrefixOf_iff_prefix.1 hpre).subset hd
        · rcases List.mem_cons.1 hd with hd | hd
          · exact Or.inr (Or.inr hd)
          · rcases mem_buildResult d sylls hd with hd | hd
            · rcases hsyl d hd with hd | hd
              · exact Or.inl hd
              · exact Or.inr (Or.inl hd)
            · exact Or.inr (Or.inr hd)
    have hc2 := mem_stripTrailingBar c _ hc
    rw [backSub_eq_map] at hc2
    rcases List.mem_map.1 hc2 with ⟨d, hd, hcd⟩
    have hd2 := hres1 d hd
    rcases backSubChar_mem d with hbs | hbs
    · rw [← hcd, hbs]
      rcases hd2 with h' | h' | h'
      · exact Or.inl h'
      · exact Or.inr h'
      · right
        rw [h']
        exact bar_mem_syllabifyIntro
    · right
      rw [← hcd]
      exact backSubOuts_sub _ hbs

/-- Characters of the rewritten stripped run come from the run or from the
introduction set. -/
theorem mem_strippedRewritten (pats : PatternSet) (sub : List Char) (c : Char)
    (hc : c ∈ strippedRewritten pats sub) : c ∈ sub ∨ c ∈ syllabifyIntro := by
  unfold strippedRewritten at hc
  rcases mem_rewriteWord c _ hc with hc | hc
  · exact Or.inl (mem_stripRest _ _ c hc)
  · exact Or.inr (rewriteIntro_sub c hc)

theorem mem_addSyllFold (pats : PatternSet) (c : Char) (w : List Char) :
    ∀ (runs : List (List Char)) (acc : List (List Char)),
      (∀ run ∈ runs, ∀ d ∈ run, d ∈ w) →
      (∀ q ∈ acc, ∀ d ∈ q, d ∈ w ∨ d ∈ syllabifyIntro) →
      ∀ piece ∈ runs.foldl (asbStep pats) acc,
      c ∈ piece → c ∈ w ∨ c ∈ syllabifyIntro
  | [], acc, _, hacc, piece, hp, hc => hacc piece hp c hc
  | run :: rest, acc, hruns, hacc, piece, hp, hc => by
    have hrun := hruns run (List.mem_cons_self _ _)
    have hrest : ∀ q ∈ rest, ∀ d ∈ q, d ∈ w :=
      fun q hq => hruns q (List.mem_cons_of_mem _ hq)
    simp only [List.foldl_cons] at hp
    by_cases hword : runIsWord run = true
    · cases hpr : processWordRun pats run with
      | some r =>
        have hstep : asbStep pats acc run = acc ++ [r] := by
          unfold asbStep
          rw [hword, hpr]
          simp
        rw [hstep] at hp
        refine mem_addSyllFold pats c w rest (acc ++ [r]) hrest ?_ piece hp hc
        intro q hq d hd
        rcases List.mem_append.1 hq with hq | hq
        · exact hacc q hq d hd
        · simp only [List.mem_singleton] at hq
          subst hq
          rcases mem_processWordRun pats run q hpr d hd with h' | h'
          · exact Or.inl (hrun d h')
          · exact Or.inr h'
      | none =>
        have hstep : asbStep pats acc run =
            (strippedRewritten pats run).map (fun c => [c]) := by
          unfold asbStep
          rw [hword, hpr]
          simp
        rw [hstep] at hp
        refine mem_addSyllFold pats c w rest _ hrest ?_ piece hp hc
        intro q hq d hd
        rcases List.mem_map.1 hq with ⟨x, hx, hxq⟩
        subst hxq
        simp only [List.mem_singleton] at hd
        rw [hd]
        rcases mem_strippedRewritten pats run x hx with h' | h'
        · exact Or.inl (hrun x h')
        · exact Or.inr h'
    · simp only [Bool.not_eq_true] at hword
      have hstep : asbStep pats acc run = acc ++ [run] := by
        unfold asbStep
        rw [hword]
        simp
      rw [hstep] at hp
      refine mem_addSyllFold pats c w rest (acc ++ [run]) hrest ?_ piece hp hc
      intro q hq d hd
      rcases List.mem_append.1 hq with hq | hq
      · exact hacc q hq d hd
      · simp only [List.mem_singleton] at hq
        subst hq
        exact Or.inl (hrun d hd)

/-- Every character of the syllabified word is a character of the word or a
member of the fixed introduction set. -/
theorem mem_syllabify (pats : PatternSet) (w : List Char) (c : Char)
    (hc : c ∈ syllabify pats w) : c ∈ w ∨ c ∈ syllabifyIntro := by
  unfold syllabify at hc
  have hsep := mem_separateChars c _ hc
  rcases hsep with hc2 | hc2
  · rcases List.mem_flatten.1 hc2 with ⟨piece, hpiece, hcp⟩
    unfold addSyllableBoundaries at hpiece
    split at hpiece
    · simp only [List.mem_singleton] at hpiece
      subst hpiece
      rcases mem_combineChars c w hcp with h' | h'
      · exact Or.inl h'
      · exact Or.inr (combineOuts_sub c h')
    · have := mem_addSyllFold pats c (combineChars w) (findRuns (combineChars w))
        [] (fun run hr d hd => mem_of_mem_chunksBy isWordChar _ run hr d hd)
        (by simp) piece hpiece hcp
      rcases this with h' | h'
      · rcases mem_combineChars c w h' with h'' | h''
        · exact Or.inl h''
        · exact Or.inr (combineOuts_sub c h'')
      · exact Or.inr h'
  · exact Or.inr (separateOuts_sub c hc2)

/-! ### The no-isolated-leading-letter property of one processed run -/

theorem backSubChar_bar_iff (c : Char) : backSubChar c = bar ↔ c = bar := by
  by_cases h1 : c = phJ
  · subst h1; constructor <;> intro h <;> exact absurd h (by decide)
  · by_cases h2 : c = phSylNun
    · subst h2; constructor <;> intro h <;> exact absurd h (by decide)
    · by_cases h3 : c = phSylLangNun
      · subst h3; constructor <;> intro h <;> exact absurd h (by decide)
      · by_cases h4 : c = phSylLamed
        · subst h4; constructor <;> intro h <;> exact absurd h (by decide)
        · by_cases h5 : c = phShtumer
          · subst h5; constructor <;> intro h <;> exact absurd h (by decide)
          · rw [show backSubChar c = c from by
              simp [backSubChar, h1, h2, h3, h4, h5]]

theorem takeWhile_map_backSubChar (s : List Char) :
    (s.map backSubChar).takeWhile (fun c => c ≠ bar) =
      (s.takeWhile (fun c => c ≠ bar)).map backSubChar := by
  induction s with
  | nil => rfl
  | cons c cs ih =>
    simp only [List.map_cons, List.takeWhile_cons]
    by_cases hc : c = bar
    · rw [show backSubChar c = bar from (backSubChar_bar_iff c).2 hc, hc]
      simp
    · have hc2 : backSubChar c ≠ bar := fun he => hc ((backSubChar_bar_iff c).1 he)
      have ih2 := ih
      simp only [decide_not] at ih2
      simp only [hc, hc2, decide_not, decide_False, Bool.not_false, ite_true,
        List.map_cons, ih2]

theorem bar_not_in_strippedRewritten (pats : PatternSet) (sub : List Char)
    (hw : ∀ c ∈ sub, isWordChar c = true) :
    bar ∉ strippedRewritten pats sub := by
  intro hb
  unfold strippedRewritten at hb
  rcases mem_rewriteWord bar _ hb with h | h
  · have := hw bar (mem_stripRest _ _ bar h)
    rw [bar_not_wordChar] at this
    exact absurd this (by decide)
  · exact absurd h bar_not_rewriteIntro

set_option maxHeartbeats 1000000 in
theorem runEmitted_no_isolated_general (pats : PatternSet)
    (hpt : pats.prefixTable = thePrefixTable) (sub : List Char)
    (hw : ∀ c ∈ sub, isWordChar c = true)
    (hb : bar ∈ runEmitted pats sub) :
    2 ≤ ((runEmitted pats sub).takeWhile (fun c => c ≠ bar)).length := by
  unfold runEmitted at hb ⊢
  cases hpr : processWordRun pats sub with
  | none =>
    rw [hpr] at hb
    exact absurd hb (bar_not_in_strippedRewritten _ sub hw)
  | some r =>
    rw [hpr] at hb
    simp only at hb ⊢
    unfold processWordRun at hpr
    cases ha : assign pats (strippedRewritten pats sub) with
    | none => rw [ha] at hpr; simp at hpr
    | some sylls =>
      rw [ha] at hpr
      simp only [Option.some.injEq] at hpr
      subst hpr
      have hsyl : bar ∉ syllsChars sylls := by
        rw [assign_chars _ _ sylls ha]
        exact bar_not_in_strippedRewritten _ sub hw
      rw [takeWhile_stripTrailingBar _ hb]
      rw [backSub_eq_map, takeWhile_map_backSubChar, List.length_map]
      have hbar1 : bar ∈ (match (stripFirstProper
          pats.prefixTable sub).1 with
        | some p => p ++ bar :: buildResult sylls
        | none => buildResult sylls) := by
        have h2 := mem_stripTrailingBar bar _ hb
        rw [backSub_eq_map] at h2
        rcases List.mem_map.1 h2 with ⟨d, hd, hcd⟩
        rw [(backSubChar_bar_iff d).1 hcd] at hd
        exact hd
      cases hp : (stripFirstProper pats.prefixTable sub).1 with
      | some p =>
        obtain ⟨hmem, _, _, _⟩ := stripFirstProper_some _ _ p hp
        rw [hpt] at hmem
        have hpall : ∀ c ∈ p, (fun c => decide (c ≠ bar)) c = true := by
          intro c hc
          simp only [decide_eq_true_eq]
          intro he
          exact (prefixTable_chars p hmem c hc).1 he
        simp only
        rw [takeWhile_append_of_all _ p (bar :: buildResult sylls) hpall]
        rw [List.length_append]
        have hplen := prefixTable_len p hmem
        have hz : (List.takeWhile (fun c => decide (c ≠ bar))
            (bar :: buildResult sylls)).length = 0 := by simp
        omega
      | none =>
        simp only
        rw [hp] at hbar1
        simp only at hbar1
        exact firstBar_buildResult sylls hsyl hbar1

/-- C5: in the boundary-marked output of one letter-run, no boundary bar
ever isolates a single leading letter: the segment before the first bar has
at least two characters (a would-be one-letter leading syllable is merged
forward, and a reattached prefix has at least two letters). -/
theorem runEmitted_no_isolated_leading_letter (sys : String) (sub : List Char)
    (hw : ∀ c ∈ sub, isWordChar c = true)
    (hb : bar ∈ runEmitted (generatePatterns sys) sub) :
    2 ≤ ((runEmitted (generatePatterns sys) sub).takeWhile
      (fun c => c ≠ bar)).length :=
  runEmitted_no_isolated_general (generatePatterns sys)
    (genPats_prefixTable sys) sub hw hb

set_option maxHeartbeats 2000000 in
/-- Witness for C5 at a concrete input: the word gimel-ayin-resh-ayin-resh
has its prefix gimel-ayin stripped and reattached before a bar, and the
segment before the first bar has two letters. -/
theorem runEmitted_no_isolated_witness :
    (∀ c ∈ [giml, ayin, reysh, ayin, reysh], isWordChar c = true) ∧
    bar ∈ runEmitted (generatePatterns "jacobs")
      [giml, ayin, reysh, ayin, reysh] ∧
    2 ≤ ((runEmitted (generatePatterns "jacobs")
      [giml, ayin, reysh, ayin, reysh]).takeWhile
        (fun c => c ≠ bar)).length :=
  ⟨by decide, by decide,
    runEmitted_no_isolated_leading_letter "jacobs"
      [giml, ayin, reysh, ayin, reysh] (by decide) (by decide)⟩

/-! ### C1: deleting bars reproduces the normalized word -/

theorem syllabify_delBars_general (pats : PatternSet)
    (hpt : pats.prefixTable = thePrefixTable) (w : List Char)
    (hbar : bar ∉ w)
    (hph : ∀ c ∈ w, c ∉ [phJ, phSylNun, phSylLangNun, phSylLamed, phShtumer])
    (hsucc : ∀ run ∈ findRuns (combineChars w), runIsWord run = true →
      processWordRun pats run ≠ none) :
    delBars (syllabify pats w) = separateChars (combineChars w) := by
  unfold syllabify
  rw [delBars_separateChars]
  refine congrArg separateChars ?_
  apply delBars_addSyllableBoundaries pats hpt
  · intro hb
    rcases mem_combineChars bar w hb with hb | hb
    · exact hbar hb
    · exact absurd hb (by decide)
  · intro c hc
    rcases mem_combineChars c w hc with hc2 | hc2
    · exact hph c hc2
    · intro hmem
      have hfact : ∀ x ∈ combineTable.map (fun ru => ru.2),
          x ∉ [phJ, phSylNun, phSylLangNun, phSylLamed, phShtumer] := by
        decide
      exact hfact c hc2 hmem
  · exact hsucc

/-- C1 (corrected): for every word containing no bar and no placeholder
letter, such that syllable assignment succeeds on every letter-run of its
combined form, deleting every boundary bar from the syllabified word
reproduces the separated, character-normalized form of the word. -/
theorem syllabify_delBars_roundtrip (sys : String) (w : List Char)
    (hbar : bar ∉ w)
    (hph : ∀ c ∈ w, c ∉ [phJ, phSylNun, phSylLangNun, phSylLamed, phShtumer])
    (hsucc : ∀ run ∈ findRuns (combineChars w), runIsWord run = true →
      processWordRun (generatePatterns sys) run ≠ none) :
    delBars (syllabify (generatePatterns sys) w) =
      separateChars (combineChars w) :=
  syllabify_delBars_general (generatePatterns sys) (genPats_prefixTable sys)
    w hbar hph hsucc

set_option maxHeartbeats 2000000 in
/-- Counterexample to C1 as stated: the word gimel-ayin-bet-bet contains no
disallowed letter and contains the vowel letter ayin, yet deleting the bars
from its syllabified form does not reproduce its normalized form (the
stripped prefix gimel-ayin is discarded when assignment of the remainder
bet-bet fails). -/
theorem syllabify_delBars_counterexample :
    disallowedHit [giml, ayin, beys, beys] = false ∧
    ayin ∈ [giml, ayin, beys, beys] ∧ ayin ∈ vowelsList ∧
    delBars (syllabify (generatePatterns "jacobs") [giml, ayin, beys, beys]) ≠
      separateChars (combineChars [giml, ayin, beys, beys]) := by
  refine ⟨by decide, by decide, by decide, ?_⟩
  decide

set_option maxHeartbeats 2000000 in
/-- Witness for C1 at a concrete input: the word resh-ayin-resh. -/
theorem syllabify_delBars_witness :
    bar ∉ [reysh, ayin, reysh] ∧
    (∀ c ∈ [reysh, ayin, reysh],
      c ∉ [phJ, phSylNun, phSylLangNun, phSylLamed, phShtumer]) ∧
    (∀ run ∈ findRuns (combineChars [reysh, ayin, reysh]),
      runIsWord run = true →
      processWordRun (generatePatterns "jacobs") run ≠ none) ∧
    delBars (syllabify (generatePatterns "jacobs") [reysh, ayin, reysh]) =
      separateChars (combineChars [reysh, ayin, reysh]) :=
  ⟨by decide, by decide, by decide,
    syllabify_delBars_roundtrip "jacobs" [reysh, ayin, reysh]
      (by decide) (by decide) (by decide)⟩

/-! ### C3: words with disallowed letters -/

/-- C3 (corrected): for every word whose combined form contains a
disallowed letter sequence, syllabify returns the character-normalized form
of the word (separate of combine); this is the word byte-for-byte exactly
when the word is stable under normalization. -/
theorem syllabify_disallowed (sys : String) (w : List Char)
    (h : disallowedHit (combineChars w) = true) :
    syllabify (generatePatterns sys) w = separateChars (combineChars w) := by
  unfold syllabify addSyllableBoundaries
  rw [if_pos h]
  simp

set_option maxHeartbeats 2000000 in
/-- Counterexample to C3 as stated: the word het-vav-vav contains the
disallowed letter het but is not returned byte-for-byte: the two vavs are
normalized to the tsvey-vovn ligature, which separate-chars never undoes. -/
theorem syllabify_disallowed_counterexample :
    containsSeq [khes] [khes, vov, vov] = true ∧
    syllabify (generatePatterns "jacobs") [khes, vov, vov] ≠
      [khes, vov, vov] := by
  refine ⟨by decide, ?_⟩
  decide

/-- Witness for C3 at a concrete input: the single letter het. -/
theorem syllabify_disallowed_witness :
    disallowedHit (combineChars [khes]) = true ∧
    syllabify (generatePatterns "jacobs") [khes] =
      separateChars (combineChars [khes]) :=
  ⟨by decide, syllabify_disallowed "jacobs" [khes] (by decide)⟩

/-! ### C4: the assignment-failure path wipes the accumulated output -/

set_option maxHeartbeats 2000000 in
/-- C4 (code bug): evaluating syllabify on the word pasekh-alef, full stop,
bet, bet: the final run bet-bet has no vocalic nucleus, assignment fails,
and the except branch ASSIGNS the run's letters to the accumulator instead
of appending them, so the already-processed runs (the pasekh-alef and the
full stop) are discarded and only bet-bet is returned. -/
theorem syllabify_wipe_eval :
    syllabify (generatePatterns "jacobs") [alef, pasekh, '.', beys, beys] =
      [beys, beys] := by
  decide

/-! ### C6: prefix stripping -/

theorem stripFirstProper_eq_firstProper (t : List (List Char))
    (w : List Char) :
    (stripFirstProper t w).1 = firstProperPfx t w := by
  unfold stripFirstProper firstProperPfx
  split
  · cases hf : t.find? (fun p => p.isPrefixOf w && !(w == p)) with
    | none => rfl
    | some p => rfl
  · rename_i hcond
    symm
    apply List.find?_eq_none.2
    intro p hp hpred
    apply hcond
    simp only [Bool.and_eq_true] at hpred
    exact List.any_eq_true.2 ⟨p, hp, hpred.1⟩

/-- C6 (corrected): at most one prefix is stripped, namely the first prefix
in table order that is a proper prefix of the word, and the stripped prefix
is never the whole word; however a word equal to a registered prefix may
still have a different registered prefix stripped. -/
theorem stripFirstProper_spec (sys : String) (w : List Char) :
    (stripFirstProper (generatePatterns sys).prefixTable w).1 =
      firstProperPfx (generatePatterns sys).prefixTable w ∧
    ∀ p, (stripFirstProper (generatePatterns sys).prefixTable w).1 = some p →
      w ≠ p ∧ p ++ (stripFirstProper (generatePatterns sys).prefixTable w).2 = w := by
  refine ⟨stripFirstProper_eq_firstProper _ _, ?_⟩
  intro p hp
  obtain ⟨_, hpre, hne, hdrop⟩ := stripFirstProper_some _ _ p hp
  refine ⟨hne, ?_⟩
  rw [hdrop]
  exact prefix_append_drop p w hpre

set_option maxHeartbeats 2000000 in
/-- Counterexample to C6's final clause: the word tsadi-vav-resh-yod-qof is
itself a registered prefix, yet the shorter registered prefix tsadi-vav is
stripped from it. -/
theorem stripFirstProper_counterexample :
    [tsadik, vov, reysh, yud, kuf] ∈ thePrefixTable ∧
    (stripFirstProper thePrefixTable [tsadik, vov, reysh, yud, kuf]).1 =
      some [tsadik, vov] := by
  refine ⟨by decide, ?_⟩
  decide

set_option maxHeartbeats 2000000 in
/-- Witness for C6 at a concrete input. -/
theorem stripFirstProper_spec_witness :
    (stripFirstProper (generatePatterns "jacobs").prefixTable
        [tsadik, vov, reysh, yud, kuf]).1 =
      firstProperPfx (generatePatterns "jacobs").prefixTable
        [tsadik, vov, reysh, yud, kuf] ∧
    ∀ p, (stripFirstProper (generatePatterns "jacobs").prefixTable
        [tsadik, vov, reysh, yud, kuf]).1 = some p →
      [tsadik, vov, reysh, yud, kuf] ≠ p ∧
      p ++ (stripFirstProper (generatePatterns "jacobs").prefixTable
        [tsadik, vov, reysh, yud, kuf]).2 = [tsadik, vov, reysh, yud, kuf] :=
  stripFirstProper_spec "jacobs" [tsadik, vov, reysh, yud, kuf]

/-! ### C8: construction with an unknown system name -/

/-- C8 (corrected): for a system name other than jacobs and viler the
constructor does NOT fail: it returns a pattern set whose onsets are
exactly the empty onset followed by the singleton consonants, with the full
consonant, vowel and prefix tables. -/
theorem generatePatterns_unknown (sys : String)
    (h1 : sys ≠ "jacobs") (h2 : sys ≠ "viler") :
    generatePatterns sys =
      { consonants := consonantsList, vowels := vowelsList,
        onsets := [] :: consonantsList.map (fun c => [c]),
        prefixTable := thePrefixTable } := by
  unfold generatePatterns
  rw [if_neg h1, if_neg h2]
  rfl

/-- Counterexample to C8 as stated: constructing the pattern tables for the
unknown system name "other" succeeds and returns a well-formed value, with
a nonempty onset table (the fallback onsets), rather than failing fatally. -/
theorem generatePatterns_unknown_counterexample :
    generatePatterns "other" =
      { consonants := consonantsList, vowels := vowelsList,
        onsets := [] :: consonantsList.map (fun c => [c]),
        prefixTable := thePrefixTable } ∧
    (generatePatterns "other").onsets ≠ [] := by
  exact ⟨rfl, by decide⟩

/-- Witness for C8 at a concrete input. -/
theorem generatePatterns_unknown_witness :
    "zzz" ≠ "jacobs" ∧ "zzz" ≠ "viler" ∧
    generatePatterns "zzz" =
      { consonants := consonantsList, vowels := vowelsList,
        onsets := [] :: consonantsList.map (fun c => [c]),
        prefixTable := thePrefixTable } :=
  ⟨by decide, by decide,
    generatePatterns_unknown "zzz" (by decide) (by decide)⟩

/-! ### C9: the documented example word -/

set_option maxHeartbeats 2000000 in
/-- C9 (confirmed): under the jacobs system, the word
alef, vav-yod, samekh, gimel, ayin, mem, vav, tet, shin, ayin, tet
syllabifies with boundaries after the third, fifth and seventh letters. -/
theorem syllabify_example_jacobs :
    syllabify (generatePatterns "jacobs")
      [alef, vovYud, samekh, giml, ayin, mem, vov, tes, shin, ayin, tes] =
    [alef, vovYud, samekh, bar, giml, ayin, bar, mem, vov, bar,
      tes, shin, ayin, tes] := by
  decide

/-! ### Lemmas about pySplit -/

theorem takeWhile_eq_self_of_all (p : Char → Bool) (xs : List Char)
    (h : ∀ c ∈ xs, p c = true) : xs.takeWhile p = xs := by
  induction xs with
  | nil => rfl
  | cons c cs ih =>
    rw [List.takeWhile_cons, h c (List.mem_cons_self _ _)]
    simp only [ite_true]
    rw [ih (fun d hd => h d (List.mem_cons_of_mem _ hd))]

theorem dropWhile_eq_nil_of_all (p : Char → Bool) (xs : List Char)
    (h : ∀ c ∈ xs, p c = true) : xs.dropWhile p = [] := by
  induction xs with
  | nil => rfl
  | cons c cs ih =>
    rw [List.dropWhile_cons, h c (List.mem_cons_self _ _)]
    simp only [ite_true]
    exact ih (fun d hd => h d (List.mem_cons_of_mem _ hd))

theorem dropWhile_append_of_all (p : Char → Bool) (xs ys : List Char)
    (h : ∀ c ∈ xs, p c = true) :
    (xs ++ ys).dropWhile p = ys.dropWhile p := by
  induction xs with
  | nil => rfl
  | cons c cs ih =>
    rw [List.cons_append, List.dropWhile_cons, h c (List.mem_cons_self _ _)]
    simp only [ite_true]
    exact ih (fun d hd => h d (List.mem_cons_of_mem _ hd))

theorem dropWhile_append_of_stop (p : Char → Bool) (xs ys : List Char)
    (h : ∃ c ∈ xs, ¬ p c = true) :
    (xs ++ ys).dropWhile p = xs.dropWhile p ++ ys := by
  induction xs with
  | nil => simp at h
  | cons c cs ih =>
    rw [List.cons_append, List.dropWhile_cons, List.dropWhile_cons]
    by_cases hc : p c = true
    · rw [hc]
      simp only [ite_true]
      rcases h with ⟨x, hx, hpx⟩
      rcases List.mem_cons.1 hx with hx | hx
      · exact absurd (hx ▸ hc) hpx
      · exact ih ⟨x, hx, hpx⟩
    · simp only [Bool.not_eq_true] at hc
      rw [hc]
      simp

theorem length_dropWhile_le (p : Char → Bool) (xs : List Char) :
    (xs.dropWhile p).length ≤ xs.length := by
  induction xs with
  | nil => simp
  | cons c cs ih =>
    rw [List.dropWhile_cons]
    split
    · exact Nat.le_trans ih (by simp)
    · simp

theorem chunksBy_cons_head (f : Char → Bool) (x : Char) (xs : List Char) :
    ∃ r' rs, chunksBy f (x :: xs) = (x :: r') :: rs := by
  cases h : chunksBy f xs with
  | nil => exact ⟨[], [], by simp [chunksBy, h]⟩
  | cons q qs =>
    cases q with
    | nil => exact ⟨[], [] :: qs, by simp [chunksBy, h]⟩
    | cons d r =>
      by_cases hfd : f x = f d
      · exact ⟨d :: r, qs, by simp [chunksBy, h, hfd]⟩
      · exact ⟨[], (d :: r) :: qs, by simp [chunksBy, h, hfd]⟩

theorem pySplit_cons_space (c : Char) (s : List Char)
    (hc : pyIsSpace c = true) : pySplit (c :: s) = pySplit s := by
  unfold pySplit
  cases h : chunksBy pyIsSpace s with
  | nil =>
    have hs : s = [] := by
      have := flatten_chunksBy pyIsSpace s
      rw [h] at this
      simpa using this.symm
    subst hs
    simp [chunksBy, hc]
  | cons q qs =>
    cases q with
    | nil =>
      have := nil_not_mem_chunksBy pyIsSpace s
      rw [h] at this
      simp at this
    | cons d r =>
      by_cases hfd : pyIsSpace c = pyIsSpace d
      · have hd : pyIsSpace d = true := hfd ▸ hc
        simp only [chunksBy, h]
        rw [if_pos hfd]
        simp [List.filter_cons, hc, hd]
      · have hd : pyIsSpace d = false := by
          cases hdd : pyIsSpace d
          · rfl
          · rw [hdd] at hfd; rw [hc] at hfd; exact absurd rfl hfd
        simp only [chunksBy, h]
        rw [if_neg hfd]
        simp [List.filter_cons, hc, hd]

theorem chunksBy_cons_step (f : Char → Bool) (x : Char) (xs : List Char)
    (d : Char) (r' : List Char) (rs : List (List Char))
    (h : chunksBy f xs = (d :: r') :: rs) :
    chunksBy f (x :: xs) =
      if f x = f d then (x :: d :: r') :: rs else [x] :: (d :: r') :: rs := by
  conv_lhs => rw [chunksBy]
  rw [h]

theorem pySplit_cons_nonspace :
    ∀ (s : List Char) (c : Char), pyIsSpace c = false →
      pySplit (c :: s) =
        (c :: s.takeWhile (fun d => !pyIsSpace d)) ::
          pySplit (s.dropWhile (fun d => !pyIsSpace d))
  | [], c, hc => by
    simp [pySplit, chunksBy, List.filter_cons, hc]
  | d :: t, c, hc => by
    obtain ⟨r', rs, hdt⟩ := chunksBy_cons_head pyIsSpace d t
    have hstep := chunksBy_cons_step pyIsSpace c (d :: t) d r' rs hdt
    by_cases hd : pyIsSpace d = true
    · have hfd : ¬ pyIsSpace c = pyIsSpace d := by
        rw [hc, hd]; exact Bool.false_ne_true
      rw [if_neg hfd] at hstep
      have h1 : pySplit (c :: d :: t) =
          [c] :: pySplit (d :: t) := by
        unfold pySplit
        rw [hstep, hdt]
        simp [List.filter_cons, hc]
      rw [h1]
      rw [List.takeWhile_cons, List.dropWhile_cons]
      simp [hd]
    · simp only [Bool.not_eq_true] at hd
      have hfd : pyIsSpace c = pyIsSpace d := by rw [hc, hd]
      rw [if_pos hfd] at hstep
      have ih := pySplit_cons_nonspace t d hd
      have h2 : pySplit (d :: t) =
          (d :: r') :: (rs.filter (fun r => !(pyIsSpace (r.headD ' ')))) := by
        unfold pySplit
        rw [hdt]
        simp [List.filter_cons, hd]
      rw [ih] at h2
      rw [List.cons.injEq] at h2
      have hr'eq : r' = t.takeWhile (fun d => !pyIsSpace d) := by
        have h4 := h2.1
        rw [List.cons.injEq] at h4
        exact h4.2.symm
      have hfilt : rs.filter (fun r => !(pyIsSpace (r.headD ' '))) =
          pySplit (t.dropWhile (fun d => !pyIsSpace d)) := h2.2.symm
      have h3 : pySplit (c :: d :: t) =
          (c :: d :: r') :: (rs.filter (fun r => !(pyIsSpace (r.headD ' ')))) := by
        unfold pySplit
        rw [hstep]
        simp [List.filter_cons, hc]
      rw [h3, hfilt, hr'eq]
      rw [List.takeWhile_cons, List.dropWhile_cons]
      simp [hd]

theorem pySplit_append_space_fuel :
    ∀ (n : Nat) (a : List Char), a.length ≤ n → ∀ b : List Char,
      pySplit (a ++ ' ' :: b) = pySplit a ++ pySplit b := by
  intro n
  induction n with
  | zero =>
    intro a ha b
    have : a = [] := List.length_eq_zero.1 (Nat.le_zero.1 ha)
    subst this
    rw [List.nil_append, pySplit_cons_space ' ' b (by decide)]
    rfl
  | succ n ih =>
    intro a ha b
    cases a with
    | nil =>
      rw [List.nil_append, pySplit_cons_space ' ' b (by decide)]
      rfl
    | cons c a' =>
      by_cases hc : pyIsSpace c = true
      · have h1 : pySplit ((c :: a') ++ ' ' :: b) =
            pySplit (a' ++ ' ' :: b) := pySplit_cons_space c _ hc
        have h2 : pySplit (c :: a') = pySplit a' := pySplit_cons_space c a' hc
        rw [h1, h2]
        exact ih a' (by simp only [List.length_cons] at ha; omega) b
      · simp only [Bool.not_eq_true] at hc
        have hsp : pyIsSpace ' ' = true := by decide
        have hLHS := pySplit_cons_nonspace (a' ++ ' ' :: b) c hc
        have hRHS := pySplit_cons_nonspace a' c hc
        by_cases hall : ∀ d ∈ a', (fun d => !pyIsSpace d) d = true
        · have ht : (a' ++ ' ' :: b).takeWhile (fun d => !pyIsSpace d) = a' := by
            rw [takeWhile_append_of_all _ a' (' ' :: b) hall,
              List.takeWhile_cons]
            simp [hsp]
          have hdw : (a' ++ ' ' :: b).dropWhile (fun d => !pyIsSpace d) =
              ' ' :: b := by
            rw [dropWhile_append_of_all _ a' (' ' :: b) hall,
              List.dropWhile_cons]
            simp [hsp]
          rw [List.cons_append, hLHS, ht, hdw,
            pySplit_cons_space ' ' b (by decide), hRHS,
            takeWhile_eq_self_of_all _ a' hall,
            dropWhile_eq_nil_of_all _ a' hall]
          rfl
        · push_neg at hall
          rcases hall with ⟨x, hx, hpx⟩
          have hstop : ∃ d ∈ a', ¬ (fun d => !pyIsSpace d) d = true :=
            ⟨x, hx, hpx⟩
          have ht : (a' ++ ' ' :: b).takeWhile (fun d => !pyIsSpace d) =
              a'.takeWhile (fun d => !pyIsSpace d) :=
            takeWhile_append_of_stop _ a' (' ' :: b) hstop
          have hdw : (a' ++ ' ' :: b).dropWhile (fun d => !pyIsSpace d) =
              a'.dropWhile (fun d => !pyIsSpace d) ++ ' ' :: b :=
            dropWhile_append_of_stop _ a' (' ' :: b) hstop
          rw [List.cons_append, hLHS, ht, hdw, hRHS]
          rw [ih (a'.dropWhile (fun d => !pyIsSpace d))
            (by
              have hl := length_dropWhile_le (fun d => !pyIsSpace d) a'
              simp only [List.length_cons] at ha
              omega) b]
          rfl

theorem pySplit_append_space (a b : List Char) :
    pySplit (a ++ ' ' :: b) = pySplit a ++ pySplit b :=
  pySplit_append_space_fuel a.length a le_rfl b

theorem pySplit_trailing_space (a : List Char) :
    pySplit (a ++ [' ']) = pySplit a := by
  have h := pySplit_append_space a []
  rw [show pySplit ([] : List Char) = [] from rfl, List.append_nil] at h
  exact h

theorem pySplit_single (w : List Char) (hne : w ≠ [])
    (hns : ∀ c ∈ w, pyIsSpace c = false) : pySplit w = [w] := by
  cases w with
  | nil => exact absurd rfl hne
  | cons c t =>
    rw [pySplit_cons_nonspace t c (hns c (List.mem_cons_self _ _))]
    rw [takeWhile_eq_self_of_all _ t
      (fun d hd => by simp [hns d (List.mem_cons_of_mem _ hd)])]
    rw [dropWhile_eq_nil_of_all _ t
      (fun d hd => by simp [hns d (List.mem_cons_of_mem _ hd)])]
    rfl

theorem mem_pySplit (s w : List Char) (h : w ∈ pySplit s) :
    w ≠ [] ∧ (∀ c ∈ w, pyIsSpace c = false) ∧ ∀ c ∈ w, c ∈ s := by
  unfold pySplit at h
  rw [List.mem_filter] at h
  obtain ⟨hmem, hhead⟩ := h
  have hne : w ≠ [] := by
    intro he
    rw [he] at hmem
    exact nil_not_mem_chunksBy pyIsSpace s hmem
  refine ⟨hne, ?_, fun c hc => mem_of_mem_chunksBy pyIsSpace s w hmem c hc⟩
  cases w with
  | nil => exact absurd rfl hne
  | cons d t =>
    intro c hc
    have huni := chunksBy_uniform pyIsSpace s (d :: t) hmem c hc d
      (List.mem_cons_self _ _)
    simp only [List.headD_cons, Bool.not_eq_true'] at hhead
    rw [huni, hhead]

/-! ### Lemmas about the hyphenator's width bookkeeping -/

theorem cumLens_length : ∀ (ss : List (List Char)) (tot : Nat),
    (cumLens tot ss).length = ss.length
  | [], _ => rfl
  | s :: ss, tot => by
    simp only [cumLens, List.length_cons]
    rw [cumLens_length ss (tot + s.length)]

theorem cumLens_getD : ∀ (ss : List (List Char)) (tot i : Nat),
    i < ss.length →
      (cumLens tot ss).getD i 0 = tot + ((ss.take (i + 1)).flatten).length
  | [], _, i, hi => by simp at hi
  | s :: ss, tot, 0, _ => by
    simp [cumLens]
  | s :: ss, tot, i + 1, hi => by
    simp only [cumLens, List.getD_cons_succ]
    rw [cumLens_getD ss (tot + s.length) i (by simpa using hi)]
    simp [List.take_cons, List.flatten_cons]
    omega

theorem lastFit_some (lineLen curLen : Nat) (cum : List Nat) (i : Nat)
    (h : lastFit lineLen curLen cum = some i) :
    i < cum.length ∧ curLen + cum.getD i 0 + 2 ≤ lineLen := by
  unfold lastFit at h
  have hmem := List.mem_of_find?_eq_some h
  have hp := List.find?_some h
  rw [List.mem_reverse, List.mem_range] at hmem
  exact ⟨hmem, by simpa using hp⟩

theorem not_space_mem_syllabify (pats : PatternSet) (w : List Char)
    (hw : ' ' ∉ w) : ' ' ∉ syllabify pats w := by
  intro h
  rcases mem_syllabify pats w ' ' h with h | h
  · exact hw h
  · exact absurd h (by decide)

theorem hyphenateWordStep_fit (pats : PatternSet) (L : Nat)
    (st : List (List Char) × List Char) (w : List Char)
    (hfit : st.2.length + w.length + 1 ≤ L) :
    hyphenateWordStep pats L st w = (st.1, st.2 ++ ' ' :: w) := by
  unfold hyphenateWordStep
  rw [if_pos hfit]

theorem hyphenateWordStep_brk (pats : PatternSet) (L : Nat)
    (st : List (List Char) × List Char) (w : List Char) (i : Nat)
    (hfit : ¬ st.2.length + w.length + 1 ≤ L)
    (hlf : lastFit L st.2.length
      (cumLens 0 (splitOnBar (syllabify pats w))) = some i) :
    hyphenateWordStep pats L st w =
      (st.1 ++ [st.2 ++ ' ' ::
          ((splitOnBar (syllabify pats w)).take (i + 1)).flatten ++ [maqaf]],
        ((splitOnBar (syllabify pats w)).drop (i + 1)).flatten) := by
  unfold hyphenateWordStep
  rw [if_neg hfit]
  simp only [hlf]

theorem hyphenateWordStep_flush (pats : PatternSet) (L : Nat)
    (st : List (List Char) × List Char) (w : List Char)
    (hfit : ¬ st.2.length + w.length + 1 ≤ L)
    (hlf : lastFit L st.2.length
      (cumLens 0 (splitOnBar (syllabify pats w))) = none) :
    hyphenateWordStep pats L st w = (st.1 ++ [st.2], w) := by
  unfold hyphenateWordStep
  rw [if_neg hfit]
  simp only [hlf]

theorem leftover_no_space (pats : PatternSet) (w : List Char) (i : Nat)
    (hw : ' ' ∉ w) :
    ' ' ∉ ((splitOnBar (syllabify pats w)).drop (i + 1)).flatten := by
  intro hsp
  rcases List.mem_flatten.1 hsp with ⟨p, hp, hcp⟩
  have hps : p ∈ splitOnBar (syllabify pats w) :=
    List.drop_subset (i + 1) _ hp
  exact not_space_mem_syllabify pats w hw
    (mem_piece_splitOnBar _ p hps ' ' hcp).1

theorem hyphenateWordStep_brk_fst (pats : PatternSet) (L : Nat)
    (st : List (List Char) × List Char) (w : List Char) (i : Nat)
    (hfit : ¬ st.2.length + w.length + 1 ≤ L)
    (hlf : lastFit L st.2.length
      (cumLens 0 (splitOnBar (syllabify pats w))) = some i) :
    (hyphenateWordStep pats L st w).1 =
      st.1 ++ [st.2 ++ ' ' ::
        ((splitOnBar (syllabify pats w)).take (i + 1)).flatten ++
          [maqaf]] := by
  rw [hyphenateWordStep_brk pats L st w i hfit hlf]

theorem hyphenateWordStep_brk_snd (pats : PatternSet) (L : Nat)
    (st : List (List Char) × List Char) (w : List Char) (i : Nat)
    (hfit : ¬ st.2.length + w.length + 1 ≤ L)
    (hlf : lastFit L st.2.length
      (cumLens 0 (splitOnBar (syllabify pats w))) = some i) :
    (hyphenateWordStep pats L st w).2 =
      ((splitOnBar (syllabify pats w)).drop (i + 1)).flatten := by
  rw [hyphenateWordStep_brk pats L st w i hfit hlf]

theorem hyphenateWordStep_flush_fst (pats : PatternSet) (L : Nat)
    (st : List (List Char) × List Char) (w : List Char)
    (hfit : ¬ st.2.length + w.length + 1 ≤ L)
    (hlf : lastFit L st.2.length
      (cumLens 0 (splitOnBar (syllabify pats w))) = none) :
    (hyphenateWordStep pats L st w).1 = st.1 ++ [st.2] := by
  rw [hyphenateWordStep_flush pats L st w hfit hlf]

theorem hyphenateWordStep_flush_snd (pats : PatternSet) (L : Nat)
    (st : List (List Char) × List Char) (w : List Char)
    (hfit : ¬ st.2.length + w.length + 1 ≤ L)
    (hlf : lastFit L st.2.length
      (cumLens 0 (splitOnBar (syllabify pats w))) = none) :
    (hyphenateWordStep pats L st w).2 = w := by
  rw [hyphenateWordStep_flush pats L st w hfit hlf]

theorem hyphenateWordStep_fit_fst (pats : PatternSet) (L : Nat)
    (st : List (List Char) × List Char) (w : List Char)
    (hfit : st.2.length + w.length + 1 ≤ L) :
    (hyphenateWordStep pats L st w).1 = st.1 := by
  rw [hyphenateWordStep_fit pats L st w hfit]

theorem hyphenateWordStep_fit_snd (pats : PatternSet) (L : Nat)
    (st : List (List Char) × List Char) (w : List Char)
    (hfit : st.2.length + w.length + 1 ≤ L) :
    (hyphenateWordStep pats L st w).2 = st.2 ++ ' ' :: w := by
  rw [hyphenateWordStep_fit pats L st w hfit]

theorem hyphenateWordStep_ok (pats : PatternSet) (L : Nat)
    (st : List (List Char) × List Char) (w : List Char) (hw : ' ' ∉ w)
    (h1 : ∀ c ∈ st.1, chunkOk L c) (h2 : chunkOk L st.2) :
    (∀ c ∈ (hyphenateWordStep pats L st w).1, chunkOk L c) ∧
      chunkOk L (hyphenateWordStep pats L st w).2 := by
  by_cases hfit : st.2.length + w.length + 1 ≤ L
  · rw [hyphenateWordStep_fit_fst pats L st w hfit,
      hyphenateWordStep_fit_snd pats L st w hfit]
    refine ⟨h1, Or.inl ?_⟩
    simp only [List.length_append, List.length_cons]
    omega
  · cases hlf : lastFit L st.2.length
        (cumLens 0 (splitOnBar (syllabify pats w))) with
    | some i =>
      rw [hyphenateWordStep_brk_fst pats L st w i hfit hlf,
        hyphenateWordStep_brk_snd pats L st w i hfit hlf]
      obtain ⟨hi, hle⟩ := lastFit_some _ _ _ _ hlf
      rw [cumLens_length] at hi
      rw [cumLens_getD _ 0 i hi, Nat.zero_add] at hle
      constructor
      · intro c hc
        rcases List.mem_append.1 hc with hcm | hcm
        · exact h1 c hcm
        · rw [List.mem_singleton] at hcm
          subst hcm
          refine Or.inl ?_
          simp only [List.length_append, List.length_cons,
            List.length_singleton, List.length_nil]
          omega
      · exact Or.inr (leftover_no_space pats w i hw)
    | none =>
      rw [hyphenateWordStep_flush_fst pats L st w hfit hlf,
        hyphenateWordStep_flush_snd pats L st w hfit hlf]
      constructor
      · intro c hc
        rcases List.mem_append.1 hc with hcm | hcm
        · exact h1 c hcm
        · rw [List.mem_singleton] at hcm
          subst hcm
          exact h2
      · exact Or.inr hw

theorem foldl_hyphenateWordStep_ok (pats : PatternSet) (L : Nat) :
    ∀ (ws : List (List Char)) (st : List (List Char) × List Char),
      (∀ w ∈ ws, ' ' ∉ w) → (∀ c ∈ st.1, chunkOk L c) → chunkOk L st.2 →
      (∀ c ∈ (ws.foldl (hyphenateWordStep pats L) st).1, chunkOk L c) ∧
        chunkOk L (ws.foldl (hyphenateWordStep pats L) st).2
  | [], st, _, h1, h2 => ⟨h1, h2⟩
  | w :: ws, st, hws, h1, h2 => by
    rw [List.foldl_cons]
    have hst := hyphenateWordStep_ok pats L st w
      (hws w (List.mem_cons_self _ _)) h1 h2
    exact foldl_hyphenateWordStep_ok pats L ws _
      (fun v hv => hws v (List.mem_cons_of_mem _ hv)) hst.1 hst.2

theorem hyphenateLine_ok (pats : PatternSet) (L : Nat)
    (chunks : List (List Char)) (line : List Char)
    (h1 : ∀ c ∈ chunks, chunkOk L c) :
    ∀ c ∈ hyphenateLine pats L chunks line, chunkOk L c := by
  have hws : ∀ w ∈ pySplit line, ' ' ∉ w := by
    intro w hw hsp
    have := (mem_pySplit line w hw).2.1 ' ' hsp
    exact absurd this (by decide)
  have h := foldl_hyphenateWordStep_ok pats L (pySplit line) (chunks, [])
    hws h1 (Or.inl (Nat.zero_le L))
  intro c hc
  unfold hyphenateLine at hc
  by_cases hne :
      ((pySplit line).foldl (hyphenateWordStep pats L) (chunks, [])).2 ≠ []
  · rw [if_pos hne] at hc
    rcases List.mem_append.1 hc with hc | hc
    · exact h.1 c hc
    · rw [List.mem_singleton] at hc
      subst hc
      exact h.2
  · rw [if_neg hne] at hc
    exact h.1 c hc

theorem foldl_hyphenateLine_ok (pats : PatternSet) (L : Nat) :
    ∀ (lines : List (List Char)) (chunks : List (List Char)),
      (∀ c ∈ chunks, chunkOk L c) →
      ∀ c ∈ lines.foldl (hyphenateLine pats L) chunks, chunkOk L c
  | [], _, h => h
  | l :: ls, chunks, h => by
    rw [List.foldl_cons]
    exact foldl_hyphenateLine_ok pats L ls _ (hyphenateLine_ok pats L chunks l h)

/-- C2 (corrected): every chunk emitted by hyphenate either has length at
most the line length, or contains no space at all — it is a single word,
or a carried-over fragment of a single word.  The literal claim's
exception ("a single unbreakable word that alone exceeds maxWidth") is
too narrow: over-long carried fragments of broken words, and chunks
seeded by an over-long word and then emitted as-is, also exceed the
width (see the counterexample). -/
theorem hyphenate_width (pats : PatternSet) (text : List Char) (L : Nat)
    (chunk : List Char) (h : chunk ∈ hyphenate pats text L) :
    chunk.length ≤ L ∨ ' ' ∉ chunk := by
  have := foldl_hyphenateLine_ok pats L (splitLines text) []
    (by intro c hc; simp at hc) chunk h
  exact this

theorem hyphenate_width_witness :
    [' ', 'a', 'a'].length ≤ 10 ∨ ' ' ∉ [' ', 'a', 'a'] :=
  hyphenate_width (generatePatterns "jacobs") ['a', 'a'] 10
    [' ', 'a', 'a'] (by decide)

set_option maxHeartbeats 2000000 in
/-- The literal C2 claim is false: with line length 6 and a single
14-codepoint word (seven alef+pasekh pairs), the second emitted chunk is
a 10-codepoint carried-over fragment — longer than 6, yet not equal to
any (unbreakable, over-long) word of the text. -/
theorem hyphenate_width_counterexample :
    ¬ (∀ chunk ∈ hyphenate (generatePatterns "jacobs")
          (List.flatten (List.replicate 7 [alef, pasekh])) 6,
        chunk.length ≤ 6 ∨
          ∃ w ∈ pySplit (List.flatten (List.replicate 7 [alef, pasekh])),
            chunk = w ∧ 6 < w.length ∧
              bar ∉ syllabify (generatePatterns "jacobs") w) := by
  decide

/-! ### C10: flushing the initial empty chunk -/

theorem hyphenateWordStep_chunks_mono (pats : PatternSet) (L : Nat)
    (st : List (List Char) × List Char) (w : List Char) :
    ∃ s, (hyphenateWordStep pats L st w).1 = st.1 ++ s := by
  by_cases hfit : st.2.length + w.length + 1 ≤ L
  · exact ⟨[], by rw [hyphenateWordStep_fit_fst pats L st w hfit,
      List.append_nil]⟩
  · cases hlf : lastFit L st.2.length
        (cumLens 0 (splitOnBar (syllabify pats w))) with
    | some i => exact ⟨_, hyphenateWordStep_brk_fst pats L st w i hfit hlf⟩
    | none => exact ⟨[st.2], hyphenateWordStep_flush_fst pats L st w hfit hlf⟩

theorem foldl_wordStep_chunks_mono (pats : PatternSet) (L : Nat) :
    ∀ (ws : List (List Char)) (st : List (List Char) × List Char),
      ∃ t, (ws.foldl (hyphenateWordStep pats L) st).1 = st.1 ++ t
  | [], st => ⟨[], (List.append_nil _).symm⟩
  | w :: ws, st => by
    rw [List.foldl_cons]
    obtain ⟨t, ht⟩ := foldl_wordStep_chunks_mono pats L ws
      (hyphenateWordStep pats L st w)
    obtain ⟨s, hs⟩ := hyphenateWordStep_chunks_mono pats L st w
    exact ⟨s ++ t, by rw [ht, hs, List.append_assoc]⟩

/-- C10 (confirmed): on a single-line text whose first word does not fit
the line length and admits no usable cumulative-syllable break, the
hyphenator flushes the initial empty chunk, so the first emitted line is
the empty string, and the word is carried forward as the new chunk. -/
theorem hyphenate_first_word_overflow (pats : PatternSet) (L : Nat)
    (text w : List Char) (ws : List (List Char))
    (hline : splitLines text = [text])
    (hsplit : pySplit text = w :: ws)
    (hbig : ¬ w.length + 1 ≤ L)
    (hnofit : lastFit L 0
      (cumLens 0 (splitOnBar (syllabify pats w))) = none) :
    (hyphenate pats text L).head? = some [] := by
  unfold hyphenate
  rw [hline, List.foldl_cons, List.foldl_nil]
  unfold hyphenateLine
  rw [hsplit, List.foldl_cons]
  have hfit : ¬ (([], []) :
      List (List Char) × List Char).2.length + w.length + 1 ≤ L := by
    simpa using hbig
  have hst1 := hyphenateWordStep_flush_fst pats L ([], []) w hfit hnofit
  have hst2 := hyphenateWordStep_flush_snd pats L ([], []) w hfit hnofit
  obtain ⟨t, ht⟩ := foldl_wordStep_chunks_mono pats L ws
    (hyphenateWordStep pats L ([], []) w)
  have hhead : (ws.foldl (hyphenateWordStep pats L)
      (hyphenateWordStep pats L ([], []) w)).1 = [] :: t := by
    rw [ht, hst1]
    rfl
  by_cases hne : (ws.foldl (hyphenateWordStep pats L)
      (hyphenateWordStep pats L ([], []) w)).2 ≠ []
  · rw [if_pos hne, hhead]
    rfl
  · rw [if_neg hne, hhead]
    rfl

set_option maxHeartbeats 1000000 in
theorem hyphenate_first_word_overflow_witness :
    (hyphenate (generatePatterns "jacobs")
      ['a', 'a', 'a', 'a', 'a', 'a', 'a'] 5).head? = some [] :=
  hyphenate_first_word_overflow (generatePatterns "jacobs") 5
    ['a', 'a', 'a', 'a', 'a', 'a', 'a'] ['a', 'a', 'a', 'a', 'a', 'a', 'a']
    [] (by decide) (by decide) (by decide) (by decide)

/-! ### C7: un-hyphenating reconstructs the words -/

theorem mem_of_getLast?_eq : ∀ (l : List Char) (a : Char),
    l.getLast? = some a → a ∈ l
  | [], a, h => by simp at h
  | [x], a, h => by
    simp only [List.getLast?_singleton, Option.some.injEq] at h
    simp [h]
  | x :: y :: t, a, h => by
    rw [List.getLast?_cons_cons] at h
    exact List.mem_cons_of_mem x (mem_of_getLast?_eq (y :: t) a h)

theorem rejoinChunks_append_one (cs : List (List Char)) (c : List Char) :
    rejoinChunks (cs ++ [c]) =
      rejoinChunks cs ++
        (if c.getLast? = some maqaf then c.dropLast else c ++ [' ']) := by
  induction cs with
  | nil => simp [rejoinChunks]
  | cons d ds ih =>
    have hstep : rejoinChunks ((d :: ds) ++ [c]) =
        (if d.getLast? = some maqaf then d.dropLast else d ++ [' ']) ++
          rejoinChunks (ds ++ [c]) := by
      rw [List.cons_append]
      rfl
    rw [hstep, ih]
    have hstep2 : rejoinChunks (d :: ds) =
        (if d.getLast? = some maqaf then d.dropLast else d ++ [' ']) ++
          rejoinChunks ds := rfl
    rw [hstep2, List.append_assoc]

theorem flatten_take_append_drop (n : Nat) (l : List (List Char)) :
    (l.take n).flatten ++ (l.drop n).flatten = l.flatten := by
  rw [← List.flatten_append, List.take_append_drop]

theorem maqaf_not_mem_leftover (pats : PatternSet) (w : List Char) (i : Nat)
    (hw : maqaf ∉ w) (hdel : delBars (syllabify pats w) = w) :
    maqaf ∉ ((splitOnBar (syllabify pats w)).drop (i + 1)).flatten := by
  intro hm
  rcases List.mem_flatten.1 hm with ⟨p, hp, hcp⟩
  have hps : p ∈ splitOnBar (syllabify pats w) :=
    List.drop_subset (i + 1) _ hp
  have : maqaf ∈ (splitOnBar (syllabify pats w)).flatten :=
    List.mem_flatten.2 ⟨p, hps, hcp⟩
  rw [flatten_splitOnBar, hdel] at this
  exact hw this

theorem hyphenateWordStep_rejoin (pats : PatternSet) (L : Nat)
    (st : List (List Char) × List Char) (w : List Char)
    (hwm : maqaf ∉ w) (hdel : delBars (syllabify pats w) = w)
    (hcur : maqaf ∉ st.2) :
    rejoinChunks (hyphenateWordStep pats L st w).1 ++
        (hyphenateWordStep pats L st w).2 =
      rejoinChunks st.1 ++ st.2 ++ ' ' :: w ∧
      maqaf ∉ (hyphenateWordStep pats L st w).2 := by
  by_cases hfit : st.2.length + w.length + 1 ≤ L
  · rw [hyphenateWordStep_fit_fst pats L st w hfit,
      hyphenateWordStep_fit_snd pats L st w hfit]
    constructor
    · rw [List.append_assoc]
    · intro hm
      rcases List.mem_append.1 hm with hm | hm
      · exact hcur hm
      · rcases List.mem_cons.1 hm with hm | hm
        · exact absurd hm (by decide)
        · exact hwm hm
  · cases hlf : lastFit L st.2.length
        (cumLens 0 (splitOnBar (syllabify pats w))) with
    | some i =>
      rw [hyphenateWordStep_brk_fst pats L st w i hfit hlf,
        hyphenateWordStep_brk_snd pats L st w i hfit hlf]
      constructor
      · rw [rejoinChunks_append_one]
        rw [if_pos (List.getLast?_concat _)]
        rw [List.dropLast_concat]
        simp only [List.append_assoc, List.cons_append]
        rw [flatten_take_append_drop, flatten_splitOnBar, hdel]
      · exact maqaf_not_mem_leftover pats w i hwm hdel
    | none =>
      rw [hyphenateWordStep_flush_fst pats L st w hfit hlf,
        hyphenateWordStep_flush_snd pats L st w hfit hlf]
      constructor
      · rw [rejoinChunks_append_one]
        rw [if_neg (by
          intro hlast
          exact hcur (mem_of_getLast?_eq st.2 maqaf hlast))]
        simp only [List.append_assoc, List.singleton_append]
      · exact hwm

theorem foldl_wordStep_rejoin (pats : PatternSet) (L : Nat) :
    ∀ (ws : List (List Char)) (st : List (List Char) × List Char)
      (processed : List (List Char)),
      (∀ w ∈ ws, w ≠ [] ∧ (∀ c ∈ w, pyIsSpace c = false) ∧
        maqaf ∉ w ∧ delBars (syllabify pats w) = w) →
      pySplit (rejoinChunks st.1 ++ st.2) = processed →
      maqaf ∉ st.2 →
      pySplit (rejoinChunks (ws.foldl (hyphenateWordStep pats L) st).1 ++
          (ws.foldl (hyphenateWordStep pats L) st).2) = processed ++ ws ∧
        maqaf ∉ (ws.foldl (hyphenateWordStep pats L) st).2
  | [], st, processed, _, hst, hcur => by
    rw [List.foldl_nil, List.append_nil]
    exact ⟨hst, hcur⟩
  | w :: ws, st, processed, hws, hst, hcur => by
    rw [List.foldl_cons]
    obtain ⟨hne, hnsp, hwm, hdel⟩ := hws w (List.mem_cons_self _ _)
    obtain ⟨hrej, hcur'⟩ :=
      hyphenateWordStep_rejoin pats L st w hwm hdel hcur
    have hst' : pySplit
        (rejoinChunks (hyphenateWordStep pats L st w).1 ++
          (hyphenateWordStep pats L st w).2) = processed ++ [w] := by
      rw [hrej, pySplit_append_space, hst, pySplit_single w hne hnsp]
    have := foldl_wordStep_rejoin pats L ws (hyphenateWordStep pats L st w)
      (processed ++ [w])
      (fun v hv => hws v (List.mem_cons_of_mem _ hv)) hst' hcur'
    rw [List.append_assoc] at this
    exact this

/-- C7 (corrected): on a single-line text each of whose words survives the
syllabifier losslessly (deleting the boundary bars from the syllabified
form gives the word back) and contains no maqaf, un-hyphenating the
emitted chunks — dropping each trailing maqaf and gluing its fragment to
the next chunk, putting a space between chunks otherwise — reconstructs
exactly the original words in order.  The losslessness hypothesis is
necessary: the prefix-wipe defect makes the literal claim false (see the
counterexample). -/
theorem hyphenate_rejoin (pats : PatternSet) (L : Nat) (text : List Char)
    (hline : splitLines text = [text])
    (hgood : ∀ w ∈ pySplit text,
      maqaf ∉ w ∧ delBars (syllabify pats w) = w) :
    pySplit (rejoinChunks (hyphenate pats text L)) = pySplit text := by
  unfold hyphenate
  rw [hline, List.foldl_cons, List.foldl_nil]
  unfold hyphenateLine
  have hws : ∀ w ∈ pySplit text, w ≠ [] ∧
      (∀ c ∈ w, pyIsSpace c = false) ∧
      maqaf ∉ w ∧ delBars (syllabify pats w) = w := by
    intro w hw
    obtain ⟨hne, hnsp, _⟩ := mem_pySplit text w hw
    exact ⟨hne, hnsp, (hgood w hw).1, (hgood w hw).2⟩
  obtain ⟨hrej, hcur⟩ := foldl_wordStep_rejoin pats L (pySplit text)
    ([], []) [] hws (by rfl) (by simp)
  rw [List.nil_append] at hrej
  by_cases hne : ((pySplit text).foldl (hyphenateWordStep pats L)
      ([], [])).2 ≠ []
  · rw [if_pos hne]
    rw [rejoinChunks_append_one]
    rw [if_neg (by
      intro hlast
      exact hcur (mem_of_getLast?_eq _ maqaf hlast))]
    rw [← List.append_assoc, pySplit_trailing_space]
    exact hrej
  · rw [if_neg hne]
    rw [not_not] at hne
    rw [hne, List.append_nil] at hrej
    exact hrej

set_option maxHeartbeats 2000000 in
/-- The literal C7 claim is false: for the four-letter word gimel, ayin,
beys, beys at line length 4, the stripped prefix is lost by the
assignment-failure handler, so un-hyphenating the emitted chunks yields
a different word than the original. -/
theorem hyphenate_rejoin_counterexample :
    ¬ (pySplit (rejoinChunks (hyphenate (generatePatterns "jacobs")
          [giml, ayin, beys, beys] 4)) =
        pySplit [giml, ayin, beys, beys]) := by
  decide

set_option maxHeartbeats 2000000 in
theorem hyphenate_rejoin_witness :
    pySplit (rejoinChunks (hyphenate (generatePatterns "jacobs")
        [reysh, ayin, reysh, reysh, ayin, reysh] 6)) =
      pySplit [reysh, ayin, reysh, reysh, ayin, reysh] :=
  hyphenate_rejoin (generatePatterns "jacobs") 6
    [reysh, ayin, reysh, reysh, ayin, reysh] (by decide) (by decide)

end Yid
